import Mathlib

/-!
# Verification of the konig random-graph generation library

This file gives a shallow embedding of the cores of the konig library
(`graphgen.hpp`, `AdjacencyTree.hpp`, `AdjacencyManager.hpp`) and settles the
specification claims against it.

Modelling conventions:
* `vertex_t` / `vid_t` (machine unsigned integers) become `Nat`; the values the
  library computes stay far below 2^64 in every claim, so no wraparound is
  modelled except where it matters and is noted.
* the `btree_set<edge_t>` adjacency list becomes a lexicographically sorted,
  duplicate-free `List (Nat × Nat)` with set-style insertion (`insertEdge`);
* the PRNG is abstracted: each routine that draws random numbers takes the
  sequence of raw draws as an explicit parameter, and theorems quantify over
  all draw sequences that `Random::randrange` could produce;
* `double`-based `round(sqrt(x))` on integer inputs is modelled by exact real
  square root with round-to-nearest (`roundSqrt`); ties cannot occur because
  `4*x` is never an odd square.
-/

/-- The `edge_t` from graphgen.hpp: an ordered pair `(tail, head)`. -/
abbrev Adj := Nat × Nat

/-- The `operator<(const edge_t&, const edge_t&)` (graphgen.hpp) and
`std::pair` ordering of `adjacency_t` (AdjacencyTree.hpp): strict
lexicographic order on `(tail, head)`. -/
def adjLt (a b : Adj) : Prop :=
  a.1 < b.1 ∨ (a.1 = b.1 ∧ a.2 < b.2)

instance (a b : Adj) : Decidable (adjLt a b) := by
  unfold adjLt; infer_instance

theorem adjLt_irrefl (a : Adj) : ¬ adjLt a a := by
  simp [adjLt]

theorem adjLt_trans {a b c : Adj} (h1 : adjLt a b) (h2 : adjLt b c) : adjLt a c := by
  rcases h1 with h1 | ⟨e1, h1⟩ <;> rcases h2 with h2 | ⟨e2, h2⟩ <;>
    unfold adjLt <;> omega

theorem adjLt_total (a b : Adj) : adjLt a b ∨ a = b ∨ adjLt b a := by
  rcases a with ⟨a1, a2⟩; rcases b with ⟨b1, b2⟩
  simp only [adjLt, Prod.mk.injEq]
  omega

theorem adjLt_asymm {a b : Adj} (h : adjLt a b) : ¬ adjLt b a := by
  intro h'
  exact adjLt_irrefl a (adjLt_trans h h')

theorem adjLt_ne {a b : Adj} (h : adjLt a b) : a ≠ b := by
  rintro rfl; exact adjLt_irrefl a h

/-- The `btree_set<edge_t>::insert`: ordered set insertion into the sorted,
duplicate-free adjacency list. -/
def insertEdge (e : Adj) : List Adj → List Adj
  | [] => [e]
  | x :: xs =>
    if adjLt e x then e :: x :: xs
    else if e = x then x :: xs
    else x :: insertEdge e xs

/-- The `Graph` state (graphgen.hpp): number of vertices and the adjacency
set `adj_list` (kept sorted). Labeler and weighter do not influence the
edge-set semantics of the claims, so they are not part of the state. -/
structure UGraph where
  N : Nat
  adj : List Adj
deriving DecidableEq, Repr

/-- The `UndirectedGraph::add_edge`: inserts both orientations. -/
def addEdge (g : UGraph) (a b : Nat) : UGraph :=
  { g with adj := insertEdge (b, a) (insertEdge (a, b) g.adj) }

/-- The `DirectedGraph::add_edge`: inserts only `(tail, head)`. -/
def addEdgeDir (g : UGraph) (a b : Nat) : UGraph :=
  { g with adj := insertEdge (a, b) g.adj }

/-- Canonical (undirected/DAG) edges: the `is_valid` filter `tail > head`. -/
def canonEdges (g : UGraph) : List Adj :=
  g.adj.filter (fun e => decide (e.2 < e.1))

/-- Number of canonical edges stored. -/
def canonCount (g : UGraph) : Nat :=
  (canonEdges g).length

/-- The exception classes of graphgen.hpp. -/
inductive KonigError where
  | tooManyEdges
  | tooFewEdges
  | tooFewNodes
  | tooManySamples
  | notImplemented
deriving DecidableEq, Repr

deriving instance DecidableEq for Except

/-! ## RangeSampler (graphgen.hpp lines 232–281)

The constructor draws `sample_size` raw values in `[min, top)` with
`top = max - sample_size - excl.size() + 1`, sorts them, then walks them once
while consuming the sorted exclusion list, replacing `samples[i]` by
`samples[i] + i + excl_idx`. The raw draws are passed in as `draws`. -/

/-- The inner `while` loop of the adjustment pass: starting at exclusion index
`j`, skip the exclusions `e` with `e ≤ v + j'` (where `v = samples[i] + i` and
`j'` is the running index), returning the final index and the remaining
exclusion list. -/
def skipExcl (v : Int) : Nat → List Int → Nat × List Int
  | j, [] => (j, [])
  | j, e :: rest =>
    if e ≤ v + (j : Int) then skipExcl v (j + 1) rest else (j, e :: rest)

/-- The `for` loop of the adjustment pass: `i` is the number of samples already
processed, `j` the current exclusion index, `excl` the remaining exclusions. -/
def adjustLoop : Nat → Nat → List Int → List Int → List Int
  | _, _, _, [] => []
  | i, j, excl, s :: rest =>
    let p := skipExcl (s + (i : Int)) j excl
    (s + (i : Int) + (p.1 : Int)) :: adjustLoop (i + 1) p.1 p.2 rest

/-- The `RangeSampler::RangeSampler(sample_size, min, max, excl)` with the raw
PRNG draws supplied explicitly.  Throwing `TooManySamplesException` is
modelled as returning `Except.error`. -/
def rangeSampler (sample_size : Nat) (lo hi : Int) (excl : List Int)
    (draws : List Int) : Except KonigError (List Int) :=
  if hi - lo < (sample_size : Int) + (excl.length : Int) then
    .error .tooManySamples
  else
    .ok (adjustLoop 0 0 (excl.insertionSort (· ≤ ·)) (draws.insertionSort (· ≤ ·)))

/-! ## Rank/edge maps of `add_edges` and `build_dag` (graphgen.hpp 525–624) -/

/-- Largest `k ≤ fuel` with `k*k ≤ n`: helper for a structurally recursive
(hence kernel-computable) integer square root. -/
def isqrtGo (n : Nat) : Nat → Nat
  | 0 => 0
  | k + 1 => if (k + 1) * (k + 1) ≤ n then k + 1 else isqrtGo n k

/-- The `⌊√n⌋`, computable by the kernel. -/
def isqrt (n : Nat) : Nat := isqrtGo n n

theorem isqrtGo_le (n : Nat) : ∀ k, isqrtGo n k ≤ k := by
  intro k
  induction k with
  | zero => simp [isqrtGo]
  | succ k ih =>
    simp only [isqrtGo]
    split
    · exact Nat.le_refl _
    · exact Nat.le_trans ih (Nat.le_succ k)

theorem isqrtGo_sq_le (n : Nat) : ∀ k, isqrtGo n k * isqrtGo n k ≤ n := by
  intro k
  induction k with
  | zero => simp [isqrtGo]
  | succ k ih =>
    simp only [isqrtGo]
    split
    · assumption
    · exact ih

theorem le_isqrtGo (n : Nat) : ∀ k j, j ≤ k → j * j ≤ n → j ≤ isqrtGo n k := by
  intro k
  induction k with
  | zero => intro j hj _; simpa [isqrtGo] using hj
  | succ k ih =>
    intro j hj hsq
    by_cases hcase : (k + 1) * (k + 1) ≤ n
    · simpa only [isqrtGo, if_pos hcase] using hj
    · simp only [isqrtGo, if_neg hcase]
      rcases Nat.lt_succ_iff_lt_or_eq.mp (Nat.lt_succ_of_le hj) with h | rfl
      · exact ih j (Nat.lt_succ_iff.mp h) hsq
      · exact absurd hsq hcase

/-- The `isqrt` agrees with Mathlib's `Nat.sqrt`. -/
theorem isqrt_eq (n : Nat) : isqrt n = Nat.sqrt n := by
  refine Nat.le_antisymm ?_ ?_
  · exact Nat.le_sqrt.mpr (isqrtGo_sq_le n n)
  · exact le_isqrtGo n n _ (Nat.sqrt_le_self n) (Nat.sqrt_le n)

/-- Round-to-nearest of the real square root of a natural number
(model of `round(sqrt(double(n)))`; `√n` is never a half-integer, so
the rounding mode for ties is irrelevant: `round(√n) = s` iff
`4*n < (2*s+1)^2`, with `s = ⌊√n⌋`). -/
def roundSqrt (n : Nat) : Nat :=
  let s := isqrt n
  if 4 * n < 4 * s * s + 4 * s + 1 then s else s + 1

/-- The `UndirectedGraph::add_edges` / `DirectedGraph::build_dag` lambda
`edge_to_rank`: `e.tail*(e.tail+1)/2 + e.head`. -/
def edge_to_rank_u (e : Adj) : Nat :=
  e.1 * (e.1 + 1) / 2 + e.2

/-- The `UndirectedGraph::add_edges` / `DirectedGraph::build_dag` lambda
`rank_to_edge`: `tail = round(sqrt(2*(rank+1)))`, `head = rank - tail*(tail-1)/2`. -/
def rank_to_edge_u (r : Nat) : Adj :=
  let t := roundSqrt (2 * (r + 1))
  (t, r - t * (t - 1) / 2)

/-- The `DirectedGraph::add_edges` lambda `edge_to_rank`:
`e.tail*(N-1) + e.head - (e.head > e.tail)`. -/
def edge_to_rank_d (n : Nat) (e : Adj) : Nat :=
  e.1 * (n - 1) + e.2 - (if e.1 < e.2 then 1 else 0)

/-- The `DirectedGraph::add_edges` lambda `rank_to_edge`. -/
def rank_to_edge_d (n : Nat) (r : Nat) : Adj :=
  let t := r / (n - 1)
  let h := r - t * (n - 1)
  (t, if t ≤ h then h + 1 else h)

/-- The `Graph::add_random_edges` (graphgen.hpp 310–329) specialised to the
undirected maps, with the raw sampler draws supplied explicitly:
collect the ranks of the existing canonical edges as the exclusion set,
sample `edges_no` ranks in `[0, U)` and add the corresponding edges. -/
def addEdgesU (g : UGraph) (edges_no : Nat) (draws : List Int) :
    Except KonigError UGraph :=
  let excl : List Int := (canonEdges g).map (fun e => (edge_to_rank_u e : Int))
  let maxEdges : Int := (g.N * (g.N - 1) / 2 : Nat)
  match rangeSampler edges_no 0 maxEdges excl draws with
  | .error err => .error err
  | .ok samples =>
    .ok (samples.foldl (fun g' r =>
      let e := rank_to_edge_u r.toNat
      addEdge g' e.1 e.2) g)

/-- The `Graph::build_wheel` (graphgen.hpp 403–409): spokes and rim for
`i = 1 .. N-1`, then the edge `(vertices_no, 0)`. -/
def buildWheel (g : UGraph) : UGraph :=
  let g1 := (List.range' 1 (g.N - 1)).foldl
    (fun g' i => addEdge (addEdge g' (i - 1) i) 0 i) g
  addEdge g1 g.N 0

/-! ## Claims about the rank maps and `add_edges` -/

/-- The sorted adjacency list of the complete graph `K10` (all ordered pairs
`(u, v)` with `u ≠ v`, `u, v < 10`). -/
def completeAdj10 : List Adj :=
  (List.range 10).flatMap
    (fun u => ((List.range 10).filter (fun v => v ≠ u)).map (fun v => (u, v)))

/-- C2: the claimed round-trip `rank_to_edge (edge_to_rank e) = e` fails on
the undirected (and DAG) maps as implemented: `edge_to_rank` computes
`tail*(tail+1)/2 + head` while `rank_to_edge` inverts `tail*(tail-1)/2 + head`.
At the valid canonical edge `e = (1, 0)` (any `N ≥ 2`), `edge_to_rank e = 1`
and `rank_to_edge 1 = (2, 0) ≠ e`. -/
theorem rank_edge_roundtrip_fails :
    edge_to_rank_u (1, 0) = 1 ∧ rank_to_edge_u 1 = (2, 0) ∧
    rank_to_edge_u (edge_to_rank_u (1, 0)) ≠ (1, 0) := by decide

/-- C1: because the exclusion set is built with the mismatched `edge_to_rank`,
`add_edges(M)` can re-select an already present edge, and then the number of
stored canonical edges does not grow by `M`.  Concretely: on
`UndirectedGraph(3)` after `add_edge(0, 1)` (canonical edge count 1), the call
`add_edges(1)` with the valid PRNG draw `0` (the sampler draws from `[0, 2)`)
re-adds the existing edge `(1, 0)` and leaves the edge count at 1 instead
of 2. -/
theorem add_edges_repeats_existing_edge :
    addEdge ⟨3, []⟩ 0 1 = ⟨3, [(0, 1), (1, 0)]⟩ ∧
    addEdgesU ⟨3, [(0, 1), (1, 0)]⟩ 1 [0] = .ok ⟨3, [(0, 1), (1, 0)]⟩ ∧
    canonCount ⟨3, [(0, 1), (1, 0)]⟩ = 1 := by decide

/-- C9: `build_wheel` stores the adjacency `(vertices_no, 0)` whose tail is the
out-of-range vertex index `N`; shown here for `N = 3`. -/
theorem build_wheel_stores_out_of_range_vertex :
    (3, 0) ∈ (buildWheel ⟨3, []⟩).adj ∧ ¬ (3 < (buildWheel ⟨3, []⟩).N) := by
  decide

set_option maxRecDepth 40000 in
/-- C4 (counterexample): on the complete graph `K10` a further `add_edges(1)`
fails, but with the sampler's `TooManySamplesException` — the code never
converts it to `TooManyEdgesException`. -/
theorem add_edges_full_error_is_not_tooManyEdges :
    addEdgesU ⟨10, completeAdj10⟩ 1 [0] = .error .tooManySamples ∧
    KonigError.tooManySamples ≠ KonigError.tooManyEdges := by decide

set_option maxRecDepth 40000 in
/-- C4 (amended): whenever `M` plus the number of existing canonical edges
exceeds `U = N(N-1)/2`, `add_edges(M)` fails with `TooManySamples` (for every
draw sequence); `UndirectedGraph(10).add_edges(45)` on the empty graph yields
the complete graph `K10` with 45 canonical edges (for every valid draw
sequence, which is necessarily all zeros since the sampler draws from
`[0, 1)`); and the subsequent `add_edges(1)` fails with `TooManySamples`. -/
theorem add_edges_overflow_behaviour :
    (∀ (g : UGraph) (M : Nat) (draws : List Int),
        g.N * (g.N - 1) / 2 < M + canonCount g →
        addEdgesU g M draws = .error .tooManySamples) ∧
    (∀ draws : List Int, draws.length = 45 → (∀ d ∈ draws, 0 ≤ d ∧ d < 1) →
        addEdgesU ⟨10, []⟩ 45 draws = .ok ⟨10, completeAdj10⟩) ∧
    canonCount ⟨10, completeAdj10⟩ = 45 ∧
    addEdgesU ⟨10, completeAdj10⟩ 1 [0] = .error .tooManySamples := by
  refine ⟨?_, ?_, by decide, by decide⟩
  · intro g M draws h
    have hs : rangeSampler M 0 ((g.N * (g.N - 1) / 2 : Nat) : Int)
        ((canonEdges g).map (fun e => (edge_to_rank_u e : Int))) draws
        = .error .tooManySamples := by
      have hcond : ((g.N * (g.N - 1) / 2 : Nat) : Int) - 0 <
          (M : Int) +
            (((canonEdges g).map (fun e => (edge_to_rank_u e : Int))).length : Int) := by
        have hl : ((canonEdges g).map (fun e => (edge_to_rank_u e : Int))).length
            = canonCount g := by
          simp [canonCount]
        rw [hl]
        push_cast
        omega
      unfold rangeSampler
      rw [if_pos hcond]
    simp only [addEdgesU, hs]
  · intro draws hlen hmem
    have hrep : draws = List.replicate 45 0 := by
      rw [List.eq_replicate_iff]
      exact ⟨hlen, fun b hb => by have := hmem b hb; omega⟩
    rw [hrep]
    decide

set_option maxRecDepth 40000 in
/-- Witness instantiating the universally quantified parts of
`add_edges_overflow_behaviour` at concrete inputs. -/
theorem add_edges_overflow_behaviour_witness :
    addEdgesU ⟨2, [(0, 1), (1, 0)]⟩ 1 [] = .error .tooManySamples ∧
    addEdgesU ⟨10, []⟩ 45 (List.replicate 45 0) = .ok ⟨10, completeAdj10⟩ :=
  ⟨add_edges_overflow_behaviour.1 ⟨2, [(0, 1), (1, 0)]⟩ 1 [] (by decide),
   add_edges_overflow_behaviour.2.1 (List.replicate 45 0) (by decide)
     (by decide)⟩

/-! ## Correctness of the exclusion-aware sampler (C3) -/

theorem skipExcl_le (v : Int) :
    ∀ (l : List Int) (j : Nat), j ≤ (skipExcl v j l).1 := by
  intro l
  induction l with
  | nil => intro j; simp [skipExcl]
  | cons e rest ih =>
    intro j
    by_cases h : e ≤ v + (j : Int)
    · simpa only [skipExcl, if_pos h] using Nat.le_trans (Nat.le_succ j) (ih (j + 1))
    · simp [skipExcl, if_neg h]

theorem skipExcl_len (v : Int) :
    ∀ (l : List Int) (j : Nat),
      (skipExcl v j l).1 + (skipExcl v j l).2.length = j + l.length := by
  intro l
  induction l with
  | nil => intro j; simp [skipExcl]
  | cons e rest ih =>
    intro j
    by_cases h : e ≤ v + (j : Int)
    · simp only [skipExcl, if_pos h, List.length_cons]
      rw [ih (j + 1)]
      omega
    · simp [skipExcl, if_neg h]

theorem skipExcl_split (v : Int) :
    ∀ (l : List Int) (j : Nat),
      ∃ taken, l = taken ++ (skipExcl v j l).2 ∧
        ∀ e ∈ taken, e ≤ v + ((skipExcl v j l).1 : Int) - 1 := by
  intro l
  induction l with
  | nil => intro j; exact ⟨[], by simp [skipExcl]⟩
  | cons e rest ih =>
    intro j
    by_cases h : e ≤ v + (j : Int)
    · obtain ⟨taken, hsplit, hbound⟩ := ih (j + 1)
      refine ⟨e :: taken, ?_, ?_⟩
      · simp only [skipExcl, if_pos h, List.cons_append, List.cons.injEq, true_and]
        exact hsplit
      · intro x hx
        rcases List.mem_cons.mp hx with rfl | hx
        · have hj : (j : Int) + 1 ≤ ((skipExcl v (j + 1) rest).1 : Int) := by
            exact_mod_cast skipExcl_le v rest (j + 1)
          simp only [skipExcl, if_pos h]
          omega
        · simpa only [skipExcl, if_pos h] using hbound x hx
    · exact ⟨[], by simp [skipExcl, if_neg h]⟩

theorem skipExcl_rest (v : Int) :
    ∀ (l : List Int) (j : Nat), l.Pairwise (· ≤ ·) →
      ∀ e ∈ (skipExcl v j l).2, v + ((skipExcl v j l).1 : Int) < e := by
  intro l
  induction l with
  | nil => intro j _; simp [skipExcl]
  | cons e0 rest ih =>
    intro j hp
    by_cases h : e0 ≤ v + (j : Int)
    · simpa only [skipExcl, if_pos h] using ih (j + 1) (List.Pairwise.of_cons hp)
    · simp only [skipExcl, if_neg h]
      intro e he
      rcases List.mem_cons.mp he with rfl | he
      · omega
      · have := (List.pairwise_cons.mp hp).1 e he
        omega

/-- Main invariant of the adjustment pass of `RangeSampler`: if the remaining
(sorted) samples lie in `[lo, B]`, at most `K` samples and `Elen` exclusions
exist overall, and all already-passed exclusions are below every upcoming
output, then the produced outputs are strictly increasing, lie in
`[lo, B + K + Elen)`, and avoid both the passed and the remaining
exclusions. -/
theorem adjustLoop_spec (K Elen : Nat) (lo B : Int) :
    ∀ (ss : List Int) (i j : Nat) (excl passed : List Int),
      ss.Pairwise (· ≤ ·) → excl.Pairwise (· ≤ ·) →
      i + ss.length ≤ K → j + excl.length ≤ Elen →
      (∀ s ∈ ss, lo ≤ s ∧ s ≤ B) →
      (∀ e ∈ passed, ∀ s ∈ ss, e < s + (i : Int) + (j : Int)) →
      (adjustLoop i j excl ss).length = ss.length ∧
      (adjustLoop i j excl ss).Pairwise (· < ·) ∧
      (∀ o ∈ adjustLoop i j excl ss, lo ≤ o ∧ o < B + (K : Int) + (Elen : Int)) ∧
      (∀ o ∈ adjustLoop i j excl ss, o ∉ passed ∧ o ∉ excl) ∧
      (∀ s0, ss.head? = some s0 →
        ∀ o ∈ adjustLoop i j excl ss, s0 + (i : Int) + (j : Int) ≤ o) := by
  intro ss
  induction ss with
  | nil =>
    intro i j excl passed _ _ _ _ _ _
    refine ⟨rfl, List.Pairwise.nil, ?_, ?_, ?_⟩ <;> simp [adjustLoop]
  | cons s0 rest ih =>
    intro i j excl passed hss hex hiK hjE hrange hpass
    set j2 := (skipExcl (s0 + (i : Int)) j excl).1 with hj2
    set excl2 := (skipExcl (s0 + (i : Int)) j excl).2 with hexcl2
    have hout : adjustLoop i j excl (s0 :: rest) =
        (s0 + (i : Int) + (j2 : Int)) :: adjustLoop (i + 1) j2 excl2 rest := rfl
    have hjle : j ≤ j2 := skipExcl_le _ excl j
    have hlen2 : j2 + excl2.length = j + excl.length := skipExcl_len _ excl j
    obtain ⟨taken, hsplit, htaken⟩ := skipExcl_split (s0 + (i : Int)) excl j
    have hrest2 : ∀ e ∈ excl2, s0 + (i : Int) + (j2 : Int) < e :=
      skipExcl_rest (s0 + (i : Int)) excl j hex
    have hex2 : excl2.Pairwise (· ≤ ·) := by
      refine List.Pairwise.sublist ?_ hex
      rw [hsplit]
      exact List.sublist_append_right taken excl2
    have hs0rest : ∀ s ∈ rest, s0 ≤ s := (List.pairwise_cons.mp hss).1
    have hpass2 : ∀ e ∈ passed ++ taken, ∀ s ∈ rest,
        e < s + ((i + 1 : Nat) : Int) + (j2 : Int) := by
      intro e he s hs
      rcases List.mem_append.mp he with he | he
      · have := hpass e he s (List.mem_cons_of_mem s0 hs)
        push_cast
        omega
      · have h1 := htaken e he
        have h2 := hs0rest s hs
        push_cast
        omega
    obtain ⟨ihlen, ihpair, ihrange, ihnot, ihhead⟩ :=
      ih (i + 1) j2 excl2 (passed ++ taken)
        (List.Pairwise.of_cons hss) hex2
        (by simp only [List.length_cons] at hiK; omega) (by omega)
        (fun s hs => hrange s (List.mem_cons_of_mem s0 hs)) hpass2
    have hs0range := hrange s0 (List.mem_cons_self _ _)
    have hiK' : i < K := by
      simp only [List.length_cons] at hiK
      omega
    have hj2E : j2 ≤ Elen := by omega
    have hheadbound : ∀ o ∈ adjustLoop (i + 1) j2 excl2 rest,
        s0 + (i : Int) + (j2 : Int) < o := by
      intro o ho
      cases rest with
      | nil => simp [adjustLoop] at ho
      | cons s1 rest' =>
        have h1 := ihhead s1 rfl o ho
        have h2 := hs0rest s1 (List.mem_cons_self _ _)
        push_cast at h1
        omega
    rw [hout]
    refine ⟨by simpa using ihlen, ?_, ?_, ?_, ?_⟩
    · exact List.pairwise_cons.mpr ⟨hheadbound, ihpair⟩
    · intro o ho
      rcases List.mem_cons.mp ho with rfl | ho
      · constructor
        · omega
        · have : (j2 : Int) ≤ (Elen : Int) := by exact_mod_cast hj2E
          have : (i : Int) < (K : Int) := by exact_mod_cast hiK'
          omega
      · exact ihrange o ho
    · intro o ho
      rcases List.mem_cons.mp ho with rfl | ho
      · constructor
        · intro hmem
          have := hpass _ hmem s0 (List.mem_cons_self _ _)
          omega
        · rw [hsplit]
          intro hmem
          rcases List.mem_append.mp hmem with hmem | hmem
          · have := htaken _ hmem
            omega
          · have := hrest2 _ hmem
            omega
      · obtain ⟨hnp, hne2⟩ := ihnot o ho
        refine ⟨fun hmem => hnp (List.mem_append.mpr (Or.inl hmem)), ?_⟩
        rw [hsplit]
        intro hmem
        rcases List.mem_append.mp hmem with hmem | hmem
        · exact hnp (List.mem_append.mpr (Or.inr hmem))
        · exact hne2 hmem
    · intro s hs o ho
      have hs0 : s0 = s := by simpa using hs
      subst hs0
      rcases List.mem_cons.mp ho with rfl | ho
      · have : (j : Int) ≤ (j2 : Int) := by exact_mod_cast hjle
        omega
      · have := hheadbound o ho
        have : (j : Int) ≤ (j2 : Int) := by exact_mod_cast hjle
        omega

/-- C3: for every sample size `K`, bounds `lo`, `hi`, and exclusion list
`excl` of values in `[lo, hi)`: whenever `hi - lo - |excl| < K`, the
constructor fails with the too-many-samples error for every draw list
(the guard precedes the sampling loop, so no draw is ever made in that
case); when `hi - lo - |excl| ≥ K` and the raw PRNG draws are any `K`
values in `[lo, top)` with `top = hi - K - |excl| + 1` (exactly the range
`Random::randrange` is called on), the constructor succeeds and yields a
strictly increasing list of exactly `K` integers in `[lo, hi)` disjoint
from the exclusions; and `K = 0` (with its empty draw list) yields the
empty sequence. -/
theorem rangeSampler_correct (K : Nat) (lo hi : Int) (excl draws : List Int)
    (hexcl : ∀ e ∈ excl, lo ≤ e ∧ e < hi) :
    ((K : Int) ≤ hi - lo - (excl.length : Int) →
      draws.length = K →
      (∀ d ∈ draws, lo ≤ d ∧ d < hi - (K : Int) - (excl.length : Int) + 1) →
      ∃ out, rangeSampler K lo hi excl draws = .ok out ∧
        out.length = K ∧ out.Pairwise (· < ·) ∧
        (∀ x ∈ out, lo ≤ x ∧ x < hi) ∧ (∀ x ∈ out, x ∉ excl)) ∧
    (hi - lo - (excl.length : Int) < (K : Int) →
      rangeSampler K lo hi excl draws = .error .tooManySamples) ∧
    (K = 0 → draws = [] → (0 : Int) ≤ hi - lo - (excl.length : Int) →
      rangeSampler K lo hi excl draws = .ok []) := by
  have hS : (draws.insertionSort (· ≤ ·)).Pairwise (· ≤ ·) :=
    List.sorted_insertionSort (· ≤ ·) draws
  have hE : (excl.insertionSort (· ≤ ·)).Pairwise (· ≤ ·) :=
    List.sorted_insertionSort (· ≤ ·) excl
  have hSperm := List.perm_insertionSort (· ≤ ·) draws
  have hEperm := List.perm_insertionSort (· ≤ ·) excl
  have hElen : (excl.insertionSort (· ≤ ·)).length = excl.length :=
    hEperm.length_eq
  refine ⟨?_, ?_, ?_⟩
  · intro hok hlen hdraw
    have hSlen : (draws.insertionSort (· ≤ ·)).length = K := by
      rw [hSperm.length_eq, hlen]
    have hcond : ¬ (hi - lo < (K : Int) + (excl.length : Int)) := by omega
    obtain ⟨olen, opair, orange, onot, -⟩ :=
      adjustLoop_spec K excl.length lo (hi - (K : Int) - (excl.length : Int))
        (draws.insertionSort (· ≤ ·)) 0 0 (excl.insertionSort (· ≤ ·)) []
        hS hE (by omega) (by omega)
        (by
          intro s hs
          have := hdraw s (hSperm.mem_iff.mp hs)
          omega)
        (by simp)
    refine ⟨adjustLoop 0 0 (excl.insertionSort (· ≤ ·)) (draws.insertionSort (· ≤ ·)),
      ?_, by omega, opair, ?_, ?_⟩
    · unfold rangeSampler
      rw [if_neg hcond]
    · intro x hx
      have := orange x hx
      omega
    · intro x hx hmem
      exact (onot x hx).2 (hEperm.mem_iff.mpr hmem)
  · intro hfail
    have hcond : hi - lo < (K : Int) + (excl.length : Int) := by omega
    unfold rangeSampler
    rw [if_pos hcond]
  · intro hK0 hnil hroom
    subst hK0
    subst hnil
    have hcond : ¬ (hi - lo < ((0 : Nat) : Int) + (excl.length : Int)) := by
      push_cast
      omega
    unfold rangeSampler
    rw [if_neg hcond]
    simp [adjustLoop]

/-- Witness: the success branch of `rangeSampler_correct` at `K = 3`,
`[lo, hi) = [0, 10)`, exclusions `{2, 5}`, draws `0, 3, 1`, and the
failure branch at `K = 4`, `[lo, hi) = [0, 5)`, exclusions `{2, 3}`
(where `hi - lo - |excl| = 3 < 4`). -/
theorem rangeSampler_correct_witness :
    (∃ out, rangeSampler 3 0 10 [2, 5] [0, 3, 1] = .ok out ∧
        out.length = 3 ∧ out.Pairwise (· < ·) ∧
        (∀ x ∈ out, 0 ≤ x ∧ x < 10) ∧ ∀ x ∈ out, x ∉ [2, 5]) ∧
    rangeSampler 4 0 5 [2, 3] [] = .error .tooManySamples :=
  ⟨(rangeSampler_correct 3 0 10 [2, 5] [0, 3, 1] (by decide)).1 (by decide)
      (by decide) (by decide),
   (rangeSampler_correct 4 0 5 [2, 3] [] (by decide)).2.1 (by decide)⟩

/-! ## Sorted-list toolkit shared by the adjacency structures -/

theorem mem_insertEdge (e b : Adj) :
    ∀ l : List Adj, b ∈ insertEdge e l ↔ b = e ∨ b ∈ l := by
  intro l
  induction l with
  | nil => simp [insertEdge]
  | cons x xs ih =>
    by_cases h1 : adjLt e x
    · simp [insertEdge, if_pos h1]
    · by_cases h2 : e = x
      · subst h2
        have he : insertEdge e (e :: xs) = e :: xs := by
          simp [insertEdge, if_neg h1]
        rw [he, List.mem_cons]
        tauto
      · simp only [insertEdge, if_neg h1, if_neg h2, List.mem_cons, ih]
        tauto

theorem pairwise_insertEdge (e : Adj) :
    ∀ l : List Adj, l.Pairwise adjLt → (insertEdge e l).Pairwise adjLt := by
  intro l
  induction l with
  | nil => intro _; simp [insertEdge]
  | cons x xs ih =>
    intro hp
    obtain ⟨hx, hxs⟩ := List.pairwise_cons.mp hp
    by_cases h1 : adjLt e x
    · simp only [insertEdge, if_pos h1]
      refine List.pairwise_cons.mpr ⟨?_, hp⟩
      intro b hb
      rcases List.mem_cons.mp hb with rfl | hb
      · exact h1
      · exact adjLt_trans h1 (hx b hb)
    · by_cases h2 : e = x
      · simpa only [insertEdge, if_neg h1, if_pos h2] using hp
      · simp only [insertEdge, if_neg h1, if_neg h2]
        refine List.pairwise_cons.mpr ⟨?_, ih hxs⟩
        intro b hb
        rcases (mem_insertEdge e b xs).mp hb with rfl | hb
        · rcases adjLt_total b x with h | h | h
          · exact absurd h h1
          · exact absurd h h2
          · exact h
        · exact hx b hb

/-- The `AdjacencyTree::erase` at the level of the stored key multiset:
remove the (unique) occurrence of `e`. -/
def eraseEdge (e : Adj) : List Adj → List Adj
  | [] => []
  | x :: xs => if x = e then xs else x :: eraseEdge e xs

theorem eraseEdge_sublist (e : Adj) : ∀ l : List Adj, (eraseEdge e l).Sublist l := by
  intro l
  induction l with
  | nil => simp [eraseEdge]
  | cons x xs ih =>
    by_cases h : x = e
    · simpa [eraseEdge, if_pos h] using List.sublist_cons_self x xs
    · simpa only [eraseEdge, if_neg h] using List.Sublist.cons₂ x ih

theorem mem_eraseEdge (e b : Adj) :
    ∀ l : List Adj, l.Pairwise adjLt → (b ∈ eraseEdge e l ↔ b ∈ l ∧ b ≠ e) := by
  intro l
  induction l with
  | nil => intro _; simp [eraseEdge]
  | cons x xs ih =>
    intro hp
    obtain ⟨hx, hxs⟩ := List.pairwise_cons.mp hp
    by_cases h : x = e
    · subst h
      simp only [eraseEdge, if_pos rfl, List.mem_cons]
      constructor
      · intro hb
        refine ⟨Or.inr hb, ?_⟩
        rintro rfl
        exact adjLt_irrefl b (hx b hb)
      · rintro ⟨rfl | hb, hne⟩
        · exact absurd rfl hne
        · exact hb
    · simp only [eraseEdge, if_neg h, List.mem_cons, ih hxs]
      constructor
      · rintro (rfl | ⟨hb, hne⟩)
        · exact ⟨Or.inl rfl, fun hbe => h hbe⟩
        · exact ⟨Or.inr hb, hne⟩
      · rintro ⟨rfl | hb, hne⟩
        · exact Or.inl rfl
        · exact Or.inr ⟨hb, hne⟩

theorem pairwise_eraseEdge (e : Adj) (l : List Adj) (hp : l.Pairwise adjLt) :
    (eraseEdge e l).Pairwise adjLt :=
  hp.sublist (eraseEdge_sublist e l)

/-- A sorted list splits as the elements with first component below `u`,
those with first component `u`, and those above: the `u`-block is contiguous. -/
theorem sorted_split_by_key (u : Nat) :
    ∀ l : List Adj, l.Pairwise adjLt →
      l = l.filter (fun x => decide (x.1 < u)) ++
          l.filter (fun x => decide (x.1 = u)) ++
          l.filter (fun x => decide (u < x.1)) := by
  intro l
  induction l with
  | nil => intro _; simp
  | cons x xs ih =>
    intro hp
    obtain ⟨hx, hxs⟩ := List.pairwise_cons.mp hp
    have hge : ∀ y ∈ xs, x.1 ≤ y.1 := by
      intro y hy
      rcases hx y hy with h | ⟨h, _⟩
      · omega
      · omega
    rcases Nat.lt_trichotomy x.1 u with h | h | h
    · have e1 : decide (x.1 < u) = true := by simpa using h
      have e2 : decide (x.1 = u) = false := by simp; omega
      have e3 : decide (u < x.1) = false := by simp; omega
      simp only [List.filter_cons, e1, e2, e3, if_true, if_false]
      calc x :: xs
          = x :: (xs.filter (fun x => decide (x.1 < u)) ++
              xs.filter (fun x => decide (x.1 = u)) ++
              xs.filter (fun x => decide (u < x.1))) := by rw [← ih hxs]
        _ = _ := by simp
    · have e1 : decide (x.1 < u) = false := by simp; omega
      have e2 : decide (x.1 = u) = true := by simpa using h
      have hf1 : xs.filter (fun x => decide (x.1 < u)) = [] := by
        rw [List.filter_eq_nil_iff]
        intro y hy
        have := hge y hy
        simp
        omega
      have e3 : decide (u < x.1) = false := by simp; omega
      simp only [List.filter_cons, e1, e2, e3, if_true, if_false]
      conv_lhs => rw [ih hxs]
      rw [hf1]
      simp
    · have e1 : decide (x.1 < u) = false := by simp; omega
      have e2 : decide (x.1 = u) = false := by simp; omega
      have e3 : decide (u < x.1) = true := by simpa using h
      have hf1 : xs.filter (fun x => decide (x.1 < u)) = [] := by
        rw [List.filter_eq_nil_iff]
        intro y hy
        have := hge y hy
        simp
        omega
      have hf2 : xs.filter (fun x => decide (x.1 = u)) = [] := by
        rw [List.filter_eq_nil_iff]
        intro y hy
        have := hge y hy
        simp
        omega
      simp only [List.filter_cons, e1, e2, e3, if_true, if_false]
      conv_lhs => rw [ih hxs]
      rw [hf1, hf2]
      simp

/-! ## AdjacencyManager (AdjacencyManager.hpp)

The manager wraps the adjacency tree; its observable tree state is the sorted
list of stored adjacencies, and the per-vertex index maps
`vertex_range_first` / `vertex_range_last` store iterators, modelled by the
keys of the nodes they point to (node addresses are stable across splays, and
an iterator's observable value is its key). -/

structure AdjMgr where
  tree : List Adj
  firstA : Nat → Option Adj
  lastA : Nat → Option Adj

/-- A default-constructed `AdjacencyManager`. -/
def mgrEmpty : AdjMgr :=
  ⟨[], fun _ => none, fun _ => none⟩

/-- The `iterator + 1` on a tree iterator (via `advance(node, 1)`): the in-order
successor, i.e. the smallest stored key greater than `a`. -/
def succIn (l : List Adj) (a : Adj) : Option Adj :=
  (l.filter (fun x => decide (adjLt a x))).head?

/-- The `iterator - 1`: the in-order predecessor. -/
def predIn (l : List Adj) (a : Adj) : Option Adj :=
  (l.filter (fun x => decide (adjLt x a))).getLast?

/-- The `AdjacencyManager::insert` (AdjacencyManager.hpp 84–100): insert into the
tree; create absent index entries (as past-the-end); then point `first` at the
new node if absent or if its current key exceeds the new adjacency, and
symmetrically for `last`. -/
def mgrInsert (m : AdjMgr) (a : Adj) : AdjMgr :=
  let u := a.1
  let fst := match m.firstA u with
    | none => some a
    | some f => if adjLt a f then some a else some f
  let lst := match m.lastA u with
    | none => some a
    | some l => if adjLt l a then some a else some l
  { tree := insertEdge a m.tree
    firstA := fun v => if v = u then fst else m.firstA v
    lastA := fun v => if v = u then lst else m.lastA v }

/-- The `AdjacencyManager::erase(iterator)` (AdjacencyManager.hpp 118–144), for an
iterator designating the stored adjacency `a`: if `a` is the sole adjacency
of `u`, drop both index entries; else advance `first` past `a` or step `last`
before `a` as needed; then erase from the tree. -/
def mgrEraseIt (m : AdjMgr) (a : Adj) : AdjMgr :=
  let u := a.1
  let fl :=
    if m.firstA u = m.lastA u then (none, none)
    else if m.firstA u = some a then (succIn m.tree a, m.lastA u)
    else if m.lastA u = some a then (m.firstA u, predIn m.tree a)
    else (m.firstA u, m.lastA u)
  { tree := eraseEdge a m.tree
    firstA := fun v => if v = u then fl.1 else m.firstA v
    lastA := fun v => if v = u then fl.2 else m.lastA v }

/-- The `AdjacencyManager::erase(adjacency_t)` (AdjacencyManager.hpp 107–111):
look the adjacency up; erase only if present. -/
def mgrErase (m : AdjMgr) (a : Adj) : AdjMgr :=
  if a ∈ m.tree then mgrEraseIt m a else m

/-- The `AdjacencyManager::size`. -/
def mgrSize (m : AdjMgr) : Nat :=
  m.tree.length

/-- C10: erasing an adjacency that is not present leaves the manager
unchanged: same stored adjacencies, same size, same index entries. -/
theorem erase_absent_is_noop (m : AdjMgr) (a : Adj) (h : a ∉ m.tree) :
    mgrErase m a = m := by
  simp [mgrErase, h]

/-- Witness: `erase_absent_is_noop` on a one-adjacency manager and the absent
adjacency `(2, 3)`. -/
theorem erase_absent_is_noop_witness :
    mgrErase ⟨[(0, 1)], fun v => if v = 0 then some (0, 1) else none,
        fun v => if v = 0 then some (0, 1) else none⟩ (2, 3) =
      ⟨[(0, 1)], fun v => if v = 0 then some (0, 1) else none,
        fun v => if v = 0 then some (0, 1) else none⟩ :=
  erase_absent_is_noop _ _ (by decide)

theorem adjLt_fst_le {x y : Adj} (h : adjLt x y) : x.1 ≤ y.1 := by
  rcases h with h | ⟨h, _⟩ <;> omega

/-- The head of a sorted nonempty list is its minimum. -/
theorem head?_spec (l : List Adj) (hp : l.Pairwise adjLt) (hne : l ≠ []) :
    ∃ m, l.head? = some m ∧ m ∈ l ∧ ∀ x ∈ l, m = x ∨ adjLt m x := by
  cases l with
  | nil => exact absurd rfl hne
  | cons y ys =>
    refine ⟨y, rfl, List.mem_cons_self _ _, ?_⟩
    intro x hx
    rcases List.mem_cons.mp hx with rfl | hx
    · exact Or.inl rfl
    · exact Or.inr ((List.pairwise_cons.mp hp).1 x hx)

/-- The last element of a sorted nonempty list is its maximum. -/
theorem getLast?_spec :
    ∀ l : List Adj, l.Pairwise adjLt → l ≠ [] →
      ∃ m, l.getLast? = some m ∧ m ∈ l ∧ ∀ x ∈ l, x = m ∨ adjLt x m := by
  intro l
  induction l with
  | nil => intro _ hne; exact absurd rfl hne
  | cons y ys ih =>
    intro hp _
    cases ys with
    | nil =>
      refine ⟨y, rfl, List.mem_cons_self _ _, ?_⟩
      intro x hx
      rcases List.mem_cons.mp hx with rfl | hx
      · exact Or.inl rfl
      · simp at hx
    | cons z zs =>
      obtain ⟨m, hm, hmem, hmax⟩ :=
        ih (List.Pairwise.of_cons hp) (by simp)
      refine ⟨m, ?_, List.mem_cons_of_mem y hmem, ?_⟩
      · rwa [List.getLast?_cons_cons]
      · intro x hx
        rcases List.mem_cons.mp hx with rfl | hx
        · exact Or.inr ((List.pairwise_cons.mp hp).1 m hmem)
        · exact hmax x hx

/-- If some stored key exceeds `a`, the in-order successor of `a` exists and
is the least stored key above `a`. -/
theorem succIn_spec (l : List Adj) (hp : l.Pairwise adjLt) (a y : Adj)
    (hy : y ∈ l) (hay : adjLt a y) :
    ∃ s, succIn l a = some s ∧ s ∈ l ∧ adjLt a s ∧
      ∀ x ∈ l, adjLt a x → s = x ∨ adjLt s x := by
  have hyf : y ∈ l.filter (fun x => decide (adjLt a x)) :=
    List.mem_filter.mpr ⟨hy, by simpa using hay⟩
  obtain ⟨s, hh, hmem, hmin⟩ :=
    head?_spec (l.filter (fun x => decide (adjLt a x)))
      (hp.sublist (List.filter_sublist l))
      (by intro h0; rw [h0] at hyf; simp at hyf)
  obtain ⟨hsl, hsgt⟩ := List.mem_filter.mp hmem
  refine ⟨s, hh, hsl, by simpa using hsgt, ?_⟩
  intro x hx hax
  exact hmin x (List.mem_filter.mpr ⟨hx, by simpa using hax⟩)

/-- If some stored key is below `a`, the in-order predecessor of `a` exists
and is the greatest stored key below `a`. -/
theorem predIn_spec (l : List Adj) (hp : l.Pairwise adjLt) (a y : Adj)
    (hy : y ∈ l) (hya : adjLt y a) :
    ∃ s, predIn l a = some s ∧ s ∈ l ∧ adjLt s a ∧
      ∀ x ∈ l, adjLt x a → x = s ∨ adjLt x s := by
  have hyf : y ∈ l.filter (fun x => decide (adjLt x a)) :=
    List.mem_filter.mpr ⟨hy, by simpa using hya⟩
  obtain ⟨s, hh, hmem, hmax⟩ :=
    getLast?_spec (l.filter (fun x => decide (adjLt x a)))
      (hp.sublist (List.filter_sublist l))
      (by intro h0; rw [h0] at hyf; simp at hyf)
  obtain ⟨hsl, hslt⟩ := List.mem_filter.mp hmem
  refine ⟨s, hh, hsl, by simpa using hslt, ?_⟩
  intro x hx hax
  exact hmax x (List.mem_filter.mpr ⟨hx, by simpa using hax⟩)

/-- The `first_adj[u]` designates the lexicographically least stored adjacency
with first endpoint `u`. -/
def IsFirstOf (m : AdjMgr) (u : Nat) (f : Adj) : Prop :=
  f ∈ m.tree ∧ f.1 = u ∧ ∀ x ∈ m.tree, x.1 = u → f = x ∨ adjLt f x

/-- The `last_adj[u]` designates the lexicographically greatest stored adjacency
with first endpoint `u`. -/
def IsLastOf (m : AdjMgr) (u : Nat) (g : Adj) : Prop :=
  g ∈ m.tree ∧ g.1 = u ∧ ∀ x ∈ m.tree, x.1 = u → g = x ∨ adjLt x g

/-- The index invariant of C7: the tree is strictly sorted, and for every
vertex `u`, either no stored adjacency has first endpoint `u` and no index
entry exists, or both entries exist and designate the least and greatest
stored adjacency with first endpoint `u`. -/
def MgrInv (m : AdjMgr) : Prop :=
  m.tree.Pairwise adjLt ∧
  ∀ u, (m.firstA u = none ∧ m.lastA u = none ∧ ∀ x ∈ m.tree, x.1 ≠ u) ∨
    (∃ f g, m.firstA u = some f ∧ m.lastA u = some g ∧
      IsFirstOf m u f ∧ IsLastOf m u g)

theorem mgrEmpty_inv : MgrInv mgrEmpty := by
  constructor
  · simp [mgrEmpty]
  · intro u
    left
    simp [mgrEmpty]

theorem mgrInsert_tree (m : AdjMgr) (a : Adj) :
    (mgrInsert m a).tree = insertEdge a m.tree := rfl

theorem mgrInsert_firstA (m : AdjMgr) (a : Adj) (u : Nat) :
    (mgrInsert m a).firstA u =
      if u = a.1 then
        (match m.firstA a.1 with
          | none => some a
          | some f => if adjLt a f then some a else some f)
      else m.firstA u := rfl

theorem mgrInsert_lastA (m : AdjMgr) (a : Adj) (u : Nat) :
    (mgrInsert m a).lastA u =
      if u = a.1 then
        (match m.lastA a.1 with
          | none => some a
          | some l => if adjLt l a then some a else some l)
      else m.lastA u := rfl

/-- The `AdjacencyManager::insert` preserves the index invariant. -/
theorem mgrInsert_inv (m : AdjMgr) (a : Adj) (h : MgrInv m) :
    MgrInv (mgrInsert m a) := by
  obtain ⟨hp, hidx⟩ := h
  constructor
  · rw [mgrInsert_tree]
    exact pairwise_insertEdge a m.tree hp
  · intro u
    by_cases hu : u = a.1
    · subst hu
      right
      have hfirstPart : ∃ f', (mgrInsert m a).firstA a.1 = some f' ∧
          IsFirstOf (mgrInsert m a) a.1 f' := by
        rcases hidx a.1 with ⟨hf, -, hempty⟩ | ⟨f, -, hfeq, -, hfirst, -⟩
        · refine ⟨a, ?_, ?_, rfl, ?_⟩
          · rw [mgrInsert_firstA, if_pos rfl, hf]
          · rw [mgrInsert_tree]
            exact (mem_insertEdge a a m.tree).mpr (Or.inl rfl)
          · intro x hx hxu
            rw [mgrInsert_tree] at hx
            rcases (mem_insertEdge a x m.tree).mp hx with rfl | hx
            · exact Or.inl rfl
            · exact absurd hxu (hempty x hx)
        · by_cases haf : adjLt a f
          · refine ⟨a, ?_, ?_, rfl, ?_⟩
            · rw [mgrInsert_firstA, if_pos rfl, hfeq]
              exact if_pos haf
            · rw [mgrInsert_tree]
              exact (mem_insertEdge a a m.tree).mpr (Or.inl rfl)
            · intro x hx hxu
              rw [mgrInsert_tree] at hx
              rcases (mem_insertEdge a x m.tree).mp hx with rfl | hx
              · exact Or.inl rfl
              · rcases hfirst.2.2 x hx hxu with rfl | hfx
                · exact Or.inr haf
                · exact Or.inr (adjLt_trans haf hfx)
          · refine ⟨f, ?_, ?_, hfirst.2.1, ?_⟩
            · rw [mgrInsert_firstA, if_pos rfl, hfeq]
              exact if_neg haf
            · rw [mgrInsert_tree]
              exact (mem_insertEdge a f m.tree).mpr (Or.inr hfirst.1)
            · intro x hx hxu
              rw [mgrInsert_tree] at hx
              rcases (mem_insertEdge a x m.tree).mp hx with rfl | hx
              · rcases adjLt_total x f with hlt | heq | hgt
                · exact absurd hlt haf
                · exact Or.inl heq.symm
                · exact Or.inr hgt
              · exact hfirst.2.2 x hx hxu
      have hlastPart : ∃ g', (mgrInsert m a).lastA a.1 = some g' ∧
          IsLastOf (mgrInsert m a) a.1 g' := by
        rcases hidx a.1 with ⟨-, hg, hempty⟩ | ⟨-, g, -, hgeq, -, hlast⟩
        · refine ⟨a, ?_, ?_, rfl, ?_⟩
          · rw [mgrInsert_lastA, if_pos rfl, hg]
          · rw [mgrInsert_tree]
            exact (mem_insertEdge a a m.tree).mpr (Or.inl rfl)
          · intro x hx hxu
            rw [mgrInsert_tree] at hx
            rcases (mem_insertEdge a x m.tree).mp hx with rfl | hx
            · exact Or.inl rfl
            · exact absurd hxu (hempty x hx)
        · by_cases hga : adjLt g a
          · refine ⟨a, ?_, ?_, rfl, ?_⟩
            · rw [mgrInsert_lastA, if_pos rfl, hgeq]
              exact if_pos hga
            · rw [mgrInsert_tree]
              exact (mem_insertEdge a a m.tree).mpr (Or.inl rfl)
            · intro x hx hxu
              rw [mgrInsert_tree] at hx
              rcases (mem_insertEdge a x m.tree).mp hx with rfl | hx
              · exact Or.inl rfl
              · rcases hlast.2.2 x hx hxu with rfl | hxg
                · exact Or.inr hga
                · exact Or.inr (adjLt_trans hxg hga)
          · refine ⟨g, ?_, ?_, hlast.2.1, ?_⟩
            · rw [mgrInsert_lastA, if_pos rfl, hgeq]
              exact if_neg hga
            · rw [mgrInsert_tree]
              exact (mem_insertEdge a g m.tree).mpr (Or.inr hlast.1)
            · intro x hx hxu
              rw [mgrInsert_tree] at hx
              rcases (mem_insertEdge a x m.tree).mp hx with rfl | hx
              · rcases adjLt_total x g with hlt | heq | hgt
                · exact Or.inr hlt
                · exact Or.inl heq.symm
                · exact absurd hgt hga
              · exact hlast.2.2 x hx hxu
      obtain ⟨f', hf1, hf2⟩ := hfirstPart
      obtain ⟨g', hg1, hg2⟩ := hlastPart
      exact ⟨f', g', hf1, hg1, hf2, hg2⟩
    · rcases hidx u with ⟨hf, hg, hempty⟩ | ⟨f, g, hfeq, hgeq, hfirst, hlast⟩
      · left
        refine ⟨?_, ?_, ?_⟩
        · rw [mgrInsert_firstA, if_neg hu]; exact hf
        · rw [mgrInsert_lastA, if_neg hu]; exact hg
        · intro x hx
          rw [mgrInsert_tree] at hx
          rcases (mem_insertEdge a x m.tree).mp hx with rfl | hx
          · intro hxu; exact hu hxu.symm
          · exact hempty x hx
      · right
        refine ⟨f, g, ?_, ?_, ⟨?_, hfirst.2.1, ?_⟩, ⟨?_, hlast.2.1, ?_⟩⟩
        · rw [mgrInsert_firstA, if_neg hu]; exact hfeq
        · rw [mgrInsert_lastA, if_neg hu]; exact hgeq
        · rw [mgrInsert_tree]
          exact (mem_insertEdge a f m.tree).mpr (Or.inr hfirst.1)
        · intro x hx hxu
          rw [mgrInsert_tree] at hx
          rcases (mem_insertEdge a x m.tree).mp hx with rfl | hx
          · exact absurd hxu.symm hu
          · exact hfirst.2.2 x hx hxu
        · rw [mgrInsert_tree]
          exact (mem_insertEdge a g m.tree).mpr (Or.inr hlast.1)
        · intro x hx hxu
          rw [mgrInsert_tree] at hx
          rcases (mem_insertEdge a x m.tree).mp hx with rfl | hx
          · exact absurd hxu.symm hu
          · exact hlast.2.2 x hx hxu

theorem mgrEraseIt_tree (m : AdjMgr) (a : Adj) :
    (mgrEraseIt m a).tree = eraseEdge a m.tree := rfl

theorem mgrEraseIt_firstA (m : AdjMgr) (a : Adj) (u : Nat) :
    (mgrEraseIt m a).firstA u =
      if u = a.1 then
        (if m.firstA a.1 = m.lastA a.1 then ((none : Option Adj), (none : Option Adj))
         else if m.firstA a.1 = some a then (succIn m.tree a, m.lastA a.1)
         else if m.lastA a.1 = some a then (m.firstA a.1, predIn m.tree a)
         else (m.firstA a.1, m.lastA a.1)).1
      else m.firstA u := rfl

theorem mgrEraseIt_lastA (m : AdjMgr) (a : Adj) (u : Nat) :
    (mgrEraseIt m a).lastA u =
      if u = a.1 then
        (if m.firstA a.1 = m.lastA a.1 then ((none : Option Adj), (none : Option Adj))
         else if m.firstA a.1 = some a then (succIn m.tree a, m.lastA a.1)
         else if m.lastA a.1 = some a then (m.firstA a.1, predIn m.tree a)
         else (m.firstA a.1, m.lastA a.1)).2
      else m.lastA u := rfl

/-- The `AdjacencyManager::erase(iterator)` preserves the index invariant. -/
theorem mgrEraseIt_inv (m : AdjMgr) (a : Adj) (h : MgrInv m)
    (hmem : a ∈ m.tree) : MgrInv (mgrEraseIt m a) := by
  obtain ⟨hp, hidx⟩ := h
  have hmemErase : ∀ x, x ∈ (mgrEraseIt m a).tree ↔ x ∈ m.tree ∧ x ≠ a := by
    intro x
    rw [mgrEraseIt_tree]
    exact mem_eraseEdge a x m.tree hp
  have hok : ∃ f g, m.firstA a.1 = some f ∧ m.lastA a.1 = some g ∧
      IsFirstOf m a.1 f ∧ IsLastOf m a.1 g := by
    rcases hidx a.1 with ⟨-, -, hempty⟩ | hok
    · exact absurd rfl (hempty a hmem)
    · exact hok
  obtain ⟨f, g, hfeq, hgeq, hfirst, hlast⟩ := hok
  have hfa : f = a ∨ adjLt f a := hfirst.2.2 a hmem rfl
  have hga : g = a ∨ adjLt a g := hlast.2.2 a hmem rfl
  constructor
  · rw [mgrEraseIt_tree]
    exact pairwise_eraseEdge a m.tree hp
  · intro u
    by_cases hu : u = a.1
    · subst hu
      by_cases h1 : m.firstA a.1 = m.lastA a.1
      · left
        have hfg : f = g := by
          rw [hfeq, hgeq] at h1
          exact Option.some.inj h1
        have hfa' : f = a := by
          rcases hfa with hfa | hfa
          · exact hfa
          · rcases hga with hga | hga
            · rw [← hfg] at hga; exact hga
            · rw [hfg] at hfa
              exact absurd hfa (adjLt_asymm hga)
        refine ⟨?_, ?_, ?_⟩
        · rw [mgrEraseIt_firstA, if_pos rfl, if_pos h1]
        · rw [mgrEraseIt_lastA, if_pos rfl, if_pos h1]
        · intro x hx hxu
          obtain ⟨hxt, hxa⟩ := (hmemErase x).mp hx
          have hxf : f = x := by
            rcases hfirst.2.2 x hxt hxu with hfx | hfx
            · exact hfx
            · rcases hlast.2.2 x hxt hxu with hgx | hgx
              · rw [← hfg] at hgx; exact hgx
              · rw [← hfg] at hgx
                exact absurd hfx (adjLt_asymm hgx)
          rw [← hxf, hfa'] at hxa
          exact hxa rfl
      · by_cases h2 : m.firstA a.1 = some a
        · have hfa' : f = a := by
            rw [hfeq] at h2; exact Option.some.inj h2
          have hgnea : g ≠ a := by
            rintro rfl
            rw [hfeq, hgeq, hfa'] at h1
            exact h1 rfl
          have hag : adjLt a g := by
            rcases hga with hga | hga
            · exact absurd hga hgnea
            · exact hga
          obtain ⟨s, hseq, hsl, has, hsmin⟩ :=
            succIn_spec m.tree hp a g hlast.1 hag
          right
          refine ⟨s, g, ?_, ?_, ⟨?_, ?_, ?_⟩, ⟨?_, hlast.2.1, ?_⟩⟩
          · rw [mgrEraseIt_firstA, if_pos rfl, if_neg h1, if_pos h2]
            exact hseq
          · rw [mgrEraseIt_lastA, if_pos rfl, if_neg h1, if_pos h2]
            exact hgeq
          · exact (hmemErase s).mpr ⟨hsl, (adjLt_ne has).symm⟩
          · have h1s : a.1 ≤ s.1 := adjLt_fst_le has
            have h2s : s.1 ≤ a.1 := by
              rcases hsmin g hlast.1 hag with rfl | hsg
              · rw [hlast.2.1]
              · rw [← hlast.2.1]
                exact adjLt_fst_le hsg
            omega
          · intro x hx hxu
            obtain ⟨hxt, hxa⟩ := (hmemErase x).mp hx
            have hax : adjLt a x := by
              rcases hfirst.2.2 x hxt hxu with hfx | hfx
              · rw [hfa'] at hfx; exact absurd hfx.symm hxa
              · rw [hfa'] at hfx; exact hfx
            exact hsmin x hxt hax
          · exact (hmemErase g).mpr ⟨hlast.1, hgnea⟩
          · intro x hx hxu
            obtain ⟨hxt, -⟩ := (hmemErase x).mp hx
            exact hlast.2.2 x hxt hxu
        · by_cases h3 : m.lastA a.1 = some a
          · have hga' : g = a := by
              rw [hgeq] at h3; exact Option.some.inj h3
            have hfnea : f ≠ a := by
              rintro rfl
              rw [hfeq] at h2
              exact h2 rfl
            have haf : adjLt f a := by
              rcases hfa with hfa | hfa
              · exact absurd hfa hfnea
              · exact hfa
            obtain ⟨s, hseq, hsl, hsa, hsmax⟩ :=
              predIn_spec m.tree hp a f hfirst.1 haf
            right
            refine ⟨f, s, ?_, ?_, ⟨?_, hfirst.2.1, ?_⟩, ⟨?_, ?_, ?_⟩⟩
            · rw [mgrEraseIt_firstA, if_pos rfl, if_neg h1, if_neg h2, if_pos h3]
              exact hfeq
            · rw [mgrEraseIt_lastA, if_pos rfl, if_neg h1, if_neg h2, if_pos h3]
              exact hseq
            · exact (hmemErase f).mpr ⟨hfirst.1, hfnea⟩
            · intro x hx hxu
              obtain ⟨hxt, -⟩ := (hmemErase x).mp hx
              exact hfirst.2.2 x hxt hxu
            · exact (hmemErase s).mpr ⟨hsl, adjLt_ne hsa⟩
            · have h1s : s.1 ≤ a.1 := adjLt_fst_le hsa
              have h2s : a.1 ≤ s.1 := by
                rcases hsmax f hfirst.1 haf with rfl | hfs
                · rw [hfirst.2.1]
                · rw [← hfirst.2.1]
                  exact adjLt_fst_le hfs
              omega
            · intro x hx hxu
              obtain ⟨hxt, hxa⟩ := (hmemErase x).mp hx
              have hax : adjLt x a := by
                rcases hlast.2.2 x hxt hxu with hgx | hgx
                · rw [hga'] at hgx; exact absurd hgx.symm hxa
                · rw [hga'] at hgx; exact hgx
              exact (hsmax x hxt hax).imp Eq.symm id
          · have hfnea : f ≠ a := by
              rintro rfl
              rw [hfeq] at h2
              exact h2 rfl
            have hgnea : g ≠ a := by
              rintro rfl
              rw [hgeq] at h3
              exact h3 rfl
            right
            refine ⟨f, g, ?_, ?_, ⟨?_, hfirst.2.1, ?_⟩, ⟨?_, hlast.2.1, ?_⟩⟩
            · rw [mgrEraseIt_firstA, if_pos rfl, if_neg h1, if_neg h2, if_neg h3]
              exact hfeq
            · rw [mgrEraseIt_lastA, if_pos rfl, if_neg h1, if_neg h2, if_neg h3]
              exact hgeq
            · exact (hmemErase f).mpr ⟨hfirst.1, hfnea⟩
            · intro x hx hxu
              obtain ⟨hxt, -⟩ := (hmemErase x).mp hx
              exact hfirst.2.2 x hxt hxu
            · exact (hmemErase g).mpr ⟨hlast.1, hgnea⟩
            · intro x hx hxu
              obtain ⟨hxt, -⟩ := (hmemErase x).mp hx
              exact hlast.2.2 x hxt hxu
    · rcases hidx u with ⟨hfn, hgn, hempty⟩ | ⟨f', g', hfeq', hgeq', hfirst', hlast'⟩
      · left
        refine ⟨?_, ?_, ?_⟩
        · rw [mgrEraseIt_firstA, if_neg hu]; exact hfn
        · rw [mgrEraseIt_lastA, if_neg hu]; exact hgn
        · intro x hx
          obtain ⟨hxt, -⟩ := (hmemErase x).mp hx
          exact hempty x hxt
      · right
        have hfne : f' ≠ a := by
          intro hfa'
          apply hu
          rw [← hfirst'.2.1, hfa']
        have hgne : g' ≠ a := by
          intro hga'
          apply hu
          rw [← hlast'.2.1, hga']
        refine ⟨f', g', ?_, ?_, ⟨?_, hfirst'.2.1, ?_⟩, ⟨?_, hlast'.2.1, ?_⟩⟩
        · rw [mgrEraseIt_firstA, if_neg hu]; exact hfeq'
        · rw [mgrEraseIt_lastA, if_neg hu]; exact hgeq'
        · exact (hmemErase f').mpr ⟨hfirst'.1, hfne⟩
        · intro x hx hxu
          obtain ⟨hxt, -⟩ := (hmemErase x).mp hx
          exact hfirst'.2.2 x hxt hxu
        · exact (hmemErase g').mpr ⟨hlast'.1, hgne⟩
        · intro x hx hxu
          obtain ⟨hxt, -⟩ := (hmemErase x).mp hx
          exact hlast'.2.2 x hxt hxu

/-- The `AdjacencyManager::erase(adjacency_t)` preserves the index invariant. -/
theorem mgrErase_inv (m : AdjMgr) (a : Adj) (h : MgrInv m) :
    MgrInv (mgrErase m a) := by
  by_cases hmem : a ∈ m.tree
  · rw [mgrErase, if_pos hmem]
    exact mgrEraseIt_inv m a h hmem
  · rw [mgrErase, if_neg hmem]
    exact h

/-- A manager operation: `insert` or `erase`. -/
inductive MgrOp where
  | ins (a : Adj)
  | del (a : Adj)

/-- Run a sequence of manager operations starting from a fresh manager. -/
def applyOps (ops : List MgrOp) : AdjMgr :=
  ops.foldl
    (fun m op =>
      match op with
      | .ins a => mgrInsert m a
      | .del a => mgrErase m a)
    mgrEmpty

theorem foldl_ops_inv (ops : List MgrOp) :
    ∀ m : AdjMgr, MgrInv m →
      MgrInv (ops.foldl
        (fun m op =>
          match op with
          | .ins a => mgrInsert m a
          | .del a => mgrErase m a) m) := by
  induction ops with
  | nil => intro m hm; exact hm
  | cons op rest ih =>
    intro m hm
    cases op with
    | ins a => exact ih (mgrInsert m a) (mgrInsert_inv m a hm)
    | del a => exact ih (mgrErase m a) (mgrErase_inv m a hm)

/-- C7: every sequence of `AdjacencyManager` insert and erase operations
preserves the index invariant: the tree stays strictly sorted; for every `u`
appearing as a first endpoint, `first_adj[u]` / `last_adj[u]` designate the
lexicographically least / greatest stored adjacency with first endpoint `u`;
no index entry exists for a vertex with no stored adjacency.  Consequently the
adjacencies with first endpoint `u` form one contiguous block of the in-order
sequence (third conjunct), so `begin(u)`/`end(u)` delimit exactly those
adjacencies in ascending order. -/
theorem manager_index_invariant (ops : List MgrOp) :
    MgrInv (applyOps ops) ∧
    ∀ u, (applyOps ops).tree =
      (applyOps ops).tree.filter (fun x => decide (x.1 < u)) ++
      (applyOps ops).tree.filter (fun x => decide (x.1 = u)) ++
      (applyOps ops).tree.filter (fun x => decide (u < x.1)) := by
  have hinv : MgrInv (applyOps ops) := foldl_ops_inv ops mgrEmpty mgrEmpty_inv
  exact ⟨hinv, fun u => sorted_split_by_key u (applyOps ops).tree hinv.1⟩

/-! ## AdjacencyTree: the augmented splay tree (AdjacencyTree.hpp)

`AdjSplayVertex` carries `(left, adjacency, subtree_size, left_subtree_size,
right)`; parent pointers are represented by the path (zipper) from the root to
a node, so the bottom-up splay becomes structural recursion on that path. -/

inductive STree where
  | nil
  | node (l : STree) (adj : Adj) (sz lss : Nat) (r : STree)
deriving DecidableEq, Repr

/-- Cached `subtree_size` (0 for a missing child), as read by `update`. -/
def csize : STree → Nat
  | .nil => 0
  | .node _ _ sz _ _ => sz

/-- Cached `left_subtree_size` of the root. -/
def lssOf : STree → Nat
  | .nil => 0
  | .node _ _ _ lss _ => lss

/-- Adjacency stored at the root (the default is never read: every use is on
a node produced by a successful search). -/
def adjOf : STree → Adj
  | .nil => (0, 0)
  | .node _ a _ _ _ => a

/-- The `AdjSplayVertex::update` (AdjacencyTree.hpp 79–90): rebuild a vertex whose
children just changed, recomputing `subtree_size` and `left_subtree_size` from
the children's cached sizes. -/
def updNode (l : STree) (a : Adj) (r : STree) : STree :=
  .node l a (1 + csize l + csize r) (csize l) r

/-- Actual number of vertices in a subtree. -/
def realSize : STree → Nat
  | .nil => 0
  | .node l _ _ _ r => 1 + realSize l + realSize r

/-- In-order key sequence. -/
def inorder : STree → List Adj
  | .nil => []
  | .node l a _ _ r => inorder l ++ a :: inorder r

/-- The augmentation invariant of C5, as a computable check: every vertex's
`subtree_size` is one plus the sizes of its children's subtrees and its
`left_subtree_size` is the size of its left subtree. -/
def validB : STree → Bool
  | .nil => true
  | .node l _ sz lss r =>
    (sz == 1 + realSize l + realSize r) && (lss == realSize l) &&
      validB l && validB r

/-- The augmentation invariant of C5. -/
def Valid (t : STree) : Prop := validB t = true

instance (t : STree) : Decidable (Valid t) := by
  unfold Valid; infer_instance

/-- Binary-search-tree ordering of the stored keys. -/
def bstB : STree → Bool
  | .nil => true
  | .node l a _ _ r =>
    (inorder l).all (fun x => decide (adjLt x a)) &&
      (inorder r).all (fun x => decide (adjLt a x)) && bstB l && bstB r

/-- Key ordering invariant (`AdjacencyTree` stores keys in strictly increasing
lexicographic in-order). -/
def BSTd (t : STree) : Prop := bstB t = true

instance (t : STree) : Decidable (BSTd t) := by
  unfold BSTd; infer_instance

/-- One step of the path from a vertex to the root: `L a sib` records that the
vertex is the left child of a parent with adjacency `a` and right subtree
`sib`; `R a sib` that it is the right child of a parent with adjacency `a` and
left subtree `sib`. -/
inductive Frame where
  | L (a : Adj) (sib : STree)
  | R (a : Adj) (sib : STree)

/-- The `AdjacencyTree::rotate_right` (AdjacencyTree.hpp 335–362) around the root
of the given subtree (promoting its left child), with `update` called on the
demoted vertex and then on the promoted one. The fallthrough case (no left
child) never arises inside `splay`. -/
def rotateRight : STree → STree
  | .node (.node ll b _ _ lr) a _ _ r => updNode ll b (updNode lr a r)
  | t => t

/-- The `AdjacencyTree::rotate_left` (AdjacencyTree.hpp 371–398). -/
def rotateLeft : STree → STree
  | .node l a _ _ (.node rl b _ _ rr) => updNode (updNode l a rl) b rr
  | t => t

/-- The `AdjacencyTree::splay` (AdjacencyTree.hpp 407–436): bottom-up splay of the
subtree `x` along its root path, with the zig, zig-zig and zig-zag cases
exactly as in the source (zig-zig rotates the grandparent first, zig-zag the
parent first). -/
def splayGo : STree → List Frame → STree
  | x, [] => x
  | x, [.L a sib] => rotateRight (updNode x a sib)
  | x, [.R a sib] => rotateLeft (updNode sib a x)
  | x, .L a p :: .L b g :: rest =>
    splayGo (rotateRight (rotateRight (updNode (updNode x a p) b g))) rest
  | x, .R a p :: .R b g :: rest =>
    splayGo (rotateLeft (rotateLeft (updNode g b (updNode p a x)))) rest
  | x, .L a p :: .R b g :: rest =>
    splayGo (rotateLeft (updNode g b (rotateRight (updNode x a p)))) rest
  | x, .R a p :: .L b g :: rest =>
    splayGo (rotateRight (updNode (rotateLeft (updNode p a x)) b g)) rest

/-- Root path to the vertex holding key `a` (innermost frame first): in a
binary search tree this is the path the parent-pointer walk of `splay`
traverses. Returns the collected path and the subtree rooted at the vertex. -/
def findPath : STree → Adj → List Frame → Option (List Frame × STree)
  | .nil, _, _ => none
  | .node l b sz lss r, a, acc =>
    if adjLt a b then findPath l a (.L b r :: acc)
    else if adjLt b a then findPath r a (.R b l :: acc)
    else some (acc, .node l b sz lss r)

/-- Splay the vertex holding key `a` to the root (no-op when absent). -/
def splayAt (t : STree) (a : Adj) : STree :=
  match findPath t a [] with
  | some (fs, sub) => splayGo sub fs
  | none => t

/-- The `AdjacencyTree::_lower_bound` (AdjacencyTree.hpp 562–582) as a path
search: descend; a vertex with key `≥ a` becomes the cut point (stopping at
equality), and the deepest recorded cut point wins; the cut point is then
splayed to the root by the caller. -/
def lbPath : STree → Adj → List Frame → Option (List Frame × STree)
  | .nil, _, _ => none
  | .node l b sz lss r, a, acc =>
    if adjLt b a then lbPath r a (.R b l :: acc)
    else if b = a then some (acc, .node l b sz lss r)
    else
      match lbPath l a (.L b r :: acc) with
      | some res => some res
      | none => some (acc, .node l b sz lss r)

/-- The `_lower_bound` together with its splay; returns the found key (if any)
and the resulting tree. -/
def lowerBoundT (t : STree) (a : Adj) : Option Adj × STree :=
  match lbPath t a [] with
  | some (fs, sub) => (some (adjOf sub), splayGo sub fs)
  | none => (none, t)

/-- The `AdjacencyTree::_upper_bound` (AdjacencyTree.hpp 591–607). -/
def ubPath : STree → Adj → List Frame → Option (List Frame × STree)
  | .nil, _, _ => none
  | .node l b sz lss r, a, acc =>
    if adjLt a b then
      match ubPath l a (.L b r :: acc) with
      | some res => some res
      | none => some (acc, .node l b sz lss r)
    else ubPath r a (.R b l :: acc)

/-- The `_upper_bound` together with its splay. -/
def upperBoundT (t : STree) (a : Adj) : Option Adj × STree :=
  match ubPath t a [] with
  | some (fs, sub) => (some (adjOf sub), splayGo sub fs)
  | none => (none, t)

/-- The `AdjacencyTree::has` (AdjacencyTree.hpp 815–819): lower bound (which
splays), then compare keys. -/
def hasT (t : STree) (a : Adj) : Bool × STree :=
  match lowerBoundT t a with
  | (some b, t') => (decide (b = a), t')
  | (none, t') => (false, t')

/-- The `AdjacencyTree::find` (AdjacencyTree.hpp 754–759): `has`, then `_find`
(which is `_lower_bound` again) on success, `end()` on failure. -/
def findT (t : STree) (a : Adj) : Option Adj × STree :=
  match hasT t a with
  | (true, t1) => lowerBoundT t1 a
  | (false, t1) => (none, t1)

/-- The `AdjacencyTree::_select` (AdjacencyTree.hpp 522–539): out-of-range ranks
give null; otherwise walk down comparing the rank with
`left_subtree_size`. `_select` does not modify the tree. -/
def selectGo : STree → Int → Option Adj
  | .nil, _ => none
  | .node l a _ lss r, k =>
    if (lss : Int) ≥ k then selectGo l k
    else if (lss : Int) < k - 1 then selectGo r (k - 1 - (lss : Int))
    else some a

/-- The `_select` with its range guard (`rank <= 0 || rank > size()`). -/
def selectT (t : STree) (k : Int) : Option Adj :=
  if k ≤ 0 ∨ k > (csize t : Int) then none
  else selectGo t k

/-- The `_select` walk, collecting the root path (used by `advance` /
`_insert` to locate the predecessor, which is then splayed by `split`). -/
def selectPathGo : STree → Int → List Frame → Option (List Frame × STree)
  | .nil, _, _ => none
  | .node l a sz lss r, k, acc =>
    if (lss : Int) ≥ k then selectPathGo l k (.L a r :: acc)
    else if (lss : Int) < k - 1 then
      selectPathGo r (k - 1 - (lss : Int)) (.R a l :: acc)
    else some (acc, .node l a sz lss r)

/-- The `AdjacencyTree::_rank` (AdjacencyTree.hpp 507–513): splay the vertex, then
return `1 + left_subtree_size`; returns the rank and the resulting tree.
(The `none` fallback models the precondition that the iterator designates a
live vertex.) -/
def rankT (t : STree) (a : Adj) : Nat × STree :=
  match findPath t a [] with
  | some (fs, sub) =>
    let t' := splayGo sub fs
    (1 + lssOf t', t')
  | none => (0, t)

/-- Path to the maximum of a subtree (`subtree_maximum`, walked by `join`
before splaying it). -/
def maxPath : STree → List Frame → List Frame × STree
  | .nil, acc => (acc, .nil)
  | .node l a sz lss .nil, acc => (acc, .node l a sz lss .nil)
  | .node l a _ _ r, acc => maxPath r (.R a l :: acc)

/-- The `AdjacencyTree::join` (AdjacencyTree.hpp 446–458): splay the maximum of
the left tree (after which it has no right child), attach the right tree as
its right child, and `update`. -/
def joinT (u v : STree) : STree :=
  match u with
  | .nil => v
  | _ =>
    match maxPath u [] with
    | (fs, sub) =>
      match splayGo sub fs with
      | .node l a _ _ _ => updNode l a v
      | .nil => v

/-- The `AdjacencyTree::_erase` (AdjacencyTree.hpp 665–692): splay the vertex;
promote the single child if one side is empty, else join the two subtrees. -/
def eraseT (t : STree) (a : Adj) : STree :=
  match findPath t a [] with
  | none => t
  | some (fs, sub) =>
    match splayGo sub fs with
    | .nil => .nil
    | .node l _ _ _ r =>
      match l with
      | .nil => r
      | _ =>
        match r with
        | .nil => l
        | _ => joinT l r

/-- The `AdjacencyTree::_insert` (AdjacencyTree.hpp 628–656): return the existing
vertex if present (after the splays done by `has`/`_find`); otherwise locate
the lower bound `cut` (splayed to the root), locate the predecessor `prev`
via `advance(cut, -1)` (that is, `_select(_rank(cut) - 1)`), `split` at
`prev` (which splays `prev`; the detached right part is then rooted at
`cut`), join the new vertex with the detached part and the left part with the
result, and finally splay the new vertex. -/
def insertT (t : STree) (a : Adj) : STree :=
  match hasT t a with
  | (true, t0) => (lowerBoundT t0 a).2
  | (false, t0) =>
    match t0 with
    | .nil => updNode .nil a .nil
    | _ =>
      match lbPath t0 a [] with
      | some (fs, cut) =>
        match splayGo cut fs with
        | .nil => .nil
        | .node l1 c1 sz1 lss1 r1 =>
          if lss1 = 0 then
            splayAt (joinT (updNode .nil a .nil) (.node l1 c1 sz1 lss1 r1)) a
          else
            match selectPathGo (.node l1 c1 sz1 lss1 r1) (lss1 : Int) [] with
            | some (pfs, psub) =>
              match splayGo psub pfs with
              | .node l2 p2 _ _ r2 =>
                splayAt (joinT (updNode l2 p2 .nil)
                  (joinT (updNode .nil a .nil) r2)) a
              | .nil => .nil
            | none => .nil
      | none => splayAt (joinT t0 (updNode .nil a .nil)) a

/-! ### Preservation of the augmentation invariant (C5) -/

theorem valid_nil : Valid .nil := rfl

theorem valid_node_iff {l r : STree} {a : Adj} {sz lss : Nat} :
    Valid (.node l a sz lss r) ↔
      sz = 1 + realSize l + realSize r ∧ lss = realSize l ∧ Valid l ∧ Valid r := by
  simp [Valid, validB, Bool.and_eq_true, beq_iff_eq, and_assoc]

theorem Valid.left {l r : STree} {a : Adj} {sz lss : Nat}
    (h : Valid (.node l a sz lss r)) : Valid l := (valid_node_iff.mp h).2.2.1

theorem Valid.right {l r : STree} {a : Adj} {sz lss : Nat}
    (h : Valid (.node l a sz lss r)) : Valid r := (valid_node_iff.mp h).2.2.2

theorem csize_eq_realSize {t : STree} (h : Valid t) : csize t = realSize t := by
  cases t with
  | nil => rfl
  | node l a sz lss r =>
    simp only [csize, realSize]
    exact (valid_node_iff.mp h).1

theorem valid_updNode {l r : STree} (a : Adj) (hl : Valid l) (hr : Valid r) :
    Valid (updNode l a r) := by
  rw [updNode, valid_node_iff, csize_eq_realSize hl, csize_eq_realSize hr]
  exact ⟨rfl, rfl, hl, hr⟩

theorem valid_rotateRight {t : STree} (h : Valid t) : Valid (rotateRight t) := by
  match t with
  | .nil => exact h
  | .node .nil a sz lss r => exact h
  | .node (.node ll b sz' lss' lr) a sz lss r =>
    have h1 := valid_node_iff.mp h
    have h2 := valid_node_iff.mp h1.2.2.1
    exact valid_updNode b h2.2.2.1 (valid_updNode a h2.2.2.2 h1.2.2.2)

theorem valid_rotateLeft {t : STree} (h : Valid t) : Valid (rotateLeft t) := by
  match t with
  | .nil => exact h
  | .node l a sz lss .nil => exact h
  | .node l a sz lss (.node rl b sz' lss' rr) =>
    have h1 := valid_node_iff.mp h
    have h2 := valid_node_iff.mp h1.2.2.2
    exact valid_updNode b (valid_updNode a h1.2.2.1 h2.2.2.1) h2.2.2.2

/-- Validity of the subtrees hanging off a root path. -/
def framesValid : List Frame → Prop
  | [] => True
  | .L _ sib :: fs => Valid sib ∧ framesValid fs
  | .R _ sib :: fs => Valid sib ∧ framesValid fs

theorem valid_splayGo :
    ∀ (x : STree) (fs : List Frame), Valid x → framesValid fs →
      Valid (splayGo x fs) := by
  intro x fs
  induction x, fs using splayGo.induct with
  | case1 x => exact fun hx _ => hx
  | case2 x a sib =>
    intro hx hf
    exact valid_rotateRight (valid_updNode a hx hf.1)
  | case3 x a sib =>
    intro hx hf
    exact valid_rotateLeft (valid_updNode a hf.1 hx)
  | case4 x a p b g rest ih =>
    intro hx hf
    exact ih (valid_rotateRight (valid_rotateRight
      (valid_updNode b (valid_updNode a hx hf.1) hf.2.1))) hf.2.2
  | case5 x a p b g rest ih =>
    intro hx hf
    exact ih (valid_rotateLeft (valid_rotateLeft
      (valid_updNode b hf.2.1 (valid_updNode a hf.1 hx)))) hf.2.2
  | case6 x a p b g rest ih =>
    intro hx hf
    exact ih (valid_rotateLeft (valid_updNode b hf.2.1
      (valid_rotateRight (valid_updNode a hx hf.1)))) hf.2.2
  | case7 x a p b g rest ih =>
    intro hx hf
    exact ih (valid_rotateRight (valid_updNode b
      (valid_rotateLeft (valid_updNode a hf.1 hx)) hf.2.1)) hf.2.2

theorem findPath_valid :
    ∀ (t : STree) (a : Adj) (acc : List Frame), Valid t → framesValid acc →
      ∀ fs sub, findPath t a acc = some (fs, sub) →
        framesValid fs ∧ Valid sub := by
  intro t
  induction t with
  | nil => intro a acc _ _ fs sub h; simp [findPath] at h
  | node l b sz lss r ihl ihr =>
    intro a acc hv hacc fs sub h
    simp only [findPath] at h
    by_cases h1 : adjLt a b
    · rw [if_pos h1] at h
      exact ihl a (.L b r :: acc) hv.left ⟨hv.right, hacc⟩ fs sub h
    · rw [if_neg h1] at h
      by_cases h2 : adjLt b a
      · rw [if_pos h2] at h
        exact ihr a (.R b l :: acc) hv.right ⟨hv.left, hacc⟩ fs sub h
      · rw [if_neg h2] at h
        simp only [Option.some.injEq, Prod.mk.injEq] at h
        obtain ⟨rfl, rfl⟩ := h
        exact ⟨hacc, hv⟩

theorem lbPath_valid :
    ∀ (t : STree) (a : Adj) (acc : List Frame), Valid t → framesValid acc →
      ∀ fs sub, lbPath t a acc = some (fs, sub) →
        framesValid fs ∧ Valid sub := by
  intro t
  induction t with
  | nil => intro a acc _ _ fs sub h; simp [lbPath] at h
  | node l b sz lss r ihl ihr =>
    intro a acc hv hacc fs sub h
    simp only [lbPath] at h
    by_cases h1 : adjLt b a
    · rw [if_pos h1] at h
      exact ihr a (.R b l :: acc) hv.right ⟨hv.left, hacc⟩ fs sub h
    · rw [if_neg h1] at h
      by_cases h2 : b = a
      · rw [if_pos h2] at h
        simp only [Option.some.injEq, Prod.mk.injEq] at h
        obtain ⟨rfl, rfl⟩ := h
        exact ⟨hacc, hv⟩
      · rw [if_neg h2] at h
        cases hrec : lbPath l a (.L b r :: acc) with
        | some res =>
          rw [hrec] at h
          simp only [Option.some.injEq] at h
          subst h
          exact ihl a (.L b r :: acc) hv.left ⟨hv.right, hacc⟩ fs sub hrec
        | none =>
          rw [hrec] at h
          simp only [Option.some.injEq, Prod.mk.injEq] at h
          obtain ⟨rfl, rfl⟩ := h
          exact ⟨hacc, hv⟩

theorem ubPath_valid :
    ∀ (t : STree) (a : Adj) (acc : List Frame), Valid t → framesValid acc →
      ∀ fs sub, ubPath t a acc = some (fs, sub) →
        framesValid fs ∧ Valid sub := by
  intro t
  induction t with
  | nil => intro a acc _ _ fs sub h; simp [ubPath] at h
  | node l b sz lss r ihl ihr =>
    intro a acc hv hacc fs sub h
    simp only [ubPath] at h
    by_cases h1 : adjLt a b
    · rw [if_pos h1] at h
      cases hrec : ubPath l a (.L b r :: acc) with
      | some res =>
        rw [hrec] at h
        simp only [Option.some.injEq] at h
        subst h
        exact ihl a (.L b r :: acc) hv.left ⟨hv.right, hacc⟩ fs sub hrec
      | none =>
        rw [hrec] at h
        simp only [Option.some.injEq, Prod.mk.injEq] at h
        obtain ⟨rfl, rfl⟩ := h
        exact ⟨hacc, hv⟩
    · rw [if_neg h1] at h
      exact ihr a (.R b l :: acc) hv.right ⟨hv.left, hacc⟩ fs sub h

theorem selectPathGo_valid :
    ∀ (t : STree) (k : Int) (acc : List Frame), Valid t → framesValid acc →
      ∀ fs sub, selectPathGo t k acc = some (fs, sub) →
        framesValid fs ∧ Valid sub := by
  intro t
  induction t with
  | nil => intro k acc _ _ fs sub h; simp [selectPathGo] at h
  | node l b sz lss r ihl ihr =>
    intro k acc hv hacc fs sub h
    simp only [selectPathGo] at h
    by_cases h1 : (lss : Int) ≥ k
    · rw [if_pos h1] at h
      exact ihl k (.L b r :: acc) hv.left ⟨hv.right, hacc⟩ fs sub h
    · rw [if_neg h1] at h
      by_cases h2 : (lss : Int) < k - 1
      · rw [if_pos h2] at h
        exact ihr (k - 1 - (lss : Int)) (.R b l :: acc) hv.right
          ⟨hv.left, hacc⟩ fs sub h
      · rw [if_neg h2] at h
        simp only [Option.some.injEq, Prod.mk.injEq] at h
        obtain ⟨rfl, rfl⟩ := h
        exact ⟨hacc, hv⟩

theorem maxPath_valid :
    ∀ (t : STree) (acc : List Frame), Valid t → framesValid acc →
      framesValid (maxPath t acc).1 ∧ Valid (maxPath t acc).2 := by
  intro t
  induction t with
  | nil => intro acc _ hacc; exact ⟨hacc, valid_nil⟩
  | node l a sz lss r ihl ihr =>
    intro acc hv hacc
    cases r with
    | nil => exact ⟨hacc, hv⟩
    | node rl rb rsz rlss rr =>
      exact ihr (.R a l :: acc) hv.right ⟨hv.left, hacc⟩

theorem valid_splayAt {t : STree} (a : Adj) (h : Valid t) :
    Valid (splayAt t a) := by
  unfold splayAt
  cases hf : findPath t a [] with
  | none => exact h
  | some res =>
    obtain ⟨fs, sub⟩ := res
    obtain ⟨hfs, hsub⟩ := findPath_valid t a [] h trivial fs sub hf
    exact valid_splayGo sub fs hsub hfs

theorem valid_joinT {u v : STree} (hu : Valid u) (hv : Valid v) :
    Valid (joinT u v) := by
  cases u with
  | nil => exact hv
  | node l a sz lss r =>
    obtain ⟨hfs, hsub⟩ := maxPath_valid (.node l a sz lss r) [] hu trivial
    have hsp := valid_splayGo _ _ hsub hfs
    unfold joinT
    split
    next heq => exact hv
    next x heq =>
      split
      next fs' sub' hmp =>
        rw [hmp] at hsp
        split
        next l' a' sz' lss' r' hres =>
          rw [hres] at hsp
          exact valid_updNode a' hsp.left hv
        next hres => exact hv

theorem valid_lowerBoundT {t : STree} (a : Adj) (h : Valid t) :
    Valid (lowerBoundT t a).2 := by
  unfold lowerBoundT
  cases hf : lbPath t a [] with
  | none => exact h
  | some res =>
    obtain ⟨fs, sub⟩ := res
    obtain ⟨hfs, hsub⟩ := lbPath_valid t a [] h trivial fs sub hf
    exact valid_splayGo sub fs hsub hfs

theorem valid_upperBoundT {t : STree} (a : Adj) (h : Valid t) :
    Valid (upperBoundT t a).2 := by
  unfold upperBoundT
  cases hf : ubPath t a [] with
  | none => exact h
  | some res =>
    obtain ⟨fs, sub⟩ := res
    obtain ⟨hfs, hsub⟩ := ubPath_valid t a [] h trivial fs sub hf
    exact valid_splayGo sub fs hsub hfs

theorem valid_hasT {t : STree} (a : Adj) (h : Valid t) :
    Valid (hasT t a).2 := by
  unfold hasT
  have h2 := valid_lowerBoundT a h
  cases hlb : lowerBoundT t a with
  | mk fst snd =>
    rw [hlb] at h2
    cases fst <;> exact h2

theorem valid_findT {t : STree} (a : Adj) (h : Valid t) :
    Valid (findT t a).2 := by
  unfold findT
  have h2 := valid_hasT a h
  cases hhs : hasT t a with
  | mk b t1 =>
    rw [hhs] at h2
    cases b
    · exact h2
    · exact valid_lowerBoundT a h2

theorem valid_rankT {t : STree} (a : Adj) (h : Valid t) :
    Valid (rankT t a).2 := by
  unfold rankT
  cases hf : findPath t a [] with
  | none => exact h
  | some res =>
    obtain ⟨fs, sub⟩ := res
    obtain ⟨hfs, hsub⟩ := findPath_valid t a [] h trivial fs sub hf
    exact valid_splayGo sub fs hsub hfs

theorem valid_eraseT {t : STree} (a : Adj) (h : Valid t) :
    Valid (eraseT t a) := by
  unfold eraseT
  cases hf : findPath t a [] with
  | none => exact h
  | some res =>
    obtain ⟨fs, sub⟩ := res
    obtain ⟨hfs, hsub⟩ := findPath_valid t a [] h trivial fs sub hf
    have hsp := valid_splayGo sub fs hsub hfs
    dsimp only
    cases hres : splayGo sub fs with
    | nil => exact valid_nil
    | node l c sz lss r =>
      rw [hres] at hsp
      dsimp only
      cases l with
      | nil => exact hsp.right
      | node al aa asz alss ar =>
        dsimp only
        cases r with
        | nil => exact hsp.left
        | node bl ba bsz blss br => exact valid_joinT hsp.left hsp.right

theorem valid_insertT {t : STree} (a : Adj) (h : Valid t) :
    Valid (insertT t a) := by
  unfold insertT
  have hhs := valid_hasT a h
  cases hh : hasT t a with
  | mk b t0 =>
    rw [hh] at hhs
    dsimp only at hhs
    cases b
    · dsimp only
      cases t0 with
      | nil => exact valid_updNode a valid_nil valid_nil
      | node l0 a0 sz0 lss0 r0 =>
        dsimp only
        cases hlb : lbPath (STree.node l0 a0 sz0 lss0 r0) a [] with
        | none =>
          exact valid_splayAt a
            (valid_joinT hhs (valid_updNode a valid_nil valid_nil))
        | some res =>
          obtain ⟨fs, cut⟩ := res
          obtain ⟨hfs, hcut⟩ :=
            lbPath_valid (STree.node l0 a0 sz0 lss0 r0) a [] hhs trivial fs cut hlb
          have hsp := valid_splayGo cut fs hcut hfs
          dsimp only
          cases hres : splayGo cut fs with
          | nil => exact valid_nil
          | node l1 c1 sz1 lss1 r1 =>
            rw [hres] at hsp
            dsimp only
            by_cases hlss : lss1 = 0
            · rw [if_pos hlss]
              exact valid_splayAt a
                (valid_joinT (valid_updNode a valid_nil valid_nil) hsp)
            · rw [if_neg hlss]
              cases hsel : selectPathGo (STree.node l1 c1 sz1 lss1 r1)
                  (lss1 : Int) [] with
              | none => exact valid_nil
              | some pres =>
                obtain ⟨pfs, psub⟩ := pres
                obtain ⟨hpfs, hpsub⟩ :=
                  selectPathGo_valid (STree.node l1 c1 sz1 lss1 r1)
                    (lss1 : Int) [] hsp trivial pfs psub hsel
                have hsp2 := valid_splayGo psub pfs hpsub hpfs
                dsimp only
                cases hres2 : splayGo psub pfs with
                | nil => exact valid_nil
                | node l2 p2 sz2 lss2 r2 =>
                  rw [hres2] at hsp2
                  dsimp only
                  exact valid_splayAt a
                    (valid_joinT (valid_updNode p2 hsp2.left valid_nil)
                      (valid_joinT (valid_updNode a valid_nil valid_nil)
                        hsp2.right))
    · dsimp only
      exact valid_lowerBoundT a hhs

/-- C5: every operation of `AdjacencyTree` — insert, erase, find, lower_bound,
upper_bound, rank, and the rotations and splays they perform — preserves the
augmentation invariant: for every vertex, `subtree_size` equals one plus the
subtree sizes of its children (absent children counting 0) and
`left_subtree_size` equals the size of its left subtree. (`select` performs
no mutation, so it preserves the invariant definitionally.) -/
theorem adjacency_tree_augmentation_invariant :
    ∀ (t : STree) (a : Adj), Valid t →
      Valid (rotateRight t) ∧ Valid (rotateLeft t) ∧ Valid (splayAt t a) ∧
      Valid (insertT t a) ∧ Valid (eraseT t a) ∧ Valid ((findT t a).2) ∧
      Valid ((lowerBoundT t a).2) ∧ Valid ((upperBoundT t a).2) ∧
      Valid ((rankT t a).2) :=
  fun t a h =>
    ⟨valid_rotateRight h, valid_rotateLeft h, valid_splayAt a h,
     valid_insertT a h, valid_eraseT a h, valid_findT a h,
     valid_lowerBoundT a h, valid_upperBoundT a h, valid_rankT a h⟩

/-- A concrete valid three-vertex tree. -/
def tEx : STree :=
  .node (.node .nil (0, 1) 1 0 .nil) (1, 0) 3 1 (.node .nil (2, 2) 1 0 .nil)

/-- Witness: the augmentation invariant is preserved on a concrete tree. -/
theorem adjacency_tree_augmentation_invariant_witness :
    Valid (insertT tEx (2, 0)) ∧ Valid (eraseT tEx (1, 0)) :=
  ⟨(adjacency_tree_augmentation_invariant tEx (2, 0) (by decide)).2.2.2.1,
   (adjacency_tree_augmentation_invariant tEx (1, 0) (by decide)).2.2.2.2.1⟩

/-! ### Rank and select are mutually inverse (C6) -/

theorem realSize_eq_length : ∀ t : STree, realSize t = (inorder t).length := by
  intro t
  induction t with
  | nil => rfl
  | node l a sz lss r ihl ihr =>
    simp only [realSize, inorder, List.length_append, List.length_cons, ihl, ihr]
    omega

/-- Keys lying before the splayed vertex contributed by its root path. -/
def befFr : List Frame → List Adj
  | [] => []
  | .L _ _ :: fs => befFr fs
  | .R a sib :: fs => befFr fs ++ inorder sib ++ [a]

/-- Keys lying after the splayed vertex contributed by its root path. -/
def aftFr : List Frame → List Adj
  | [] => []
  | .L a sib :: fs => a :: (inorder sib ++ aftFr fs)
  | .R _ _ :: fs => aftFr fs

theorem splayGo_structure_aux :
    ∀ (n : Nat) (fs : List Frame), fs.length ≤ n →
      ∀ (xl xr : STree) (c : Adj) (sz lss : Nat),
        ∃ L sz' lss' R,
          splayGo (.node xl c sz lss xr) fs = .node L c sz' lss' R ∧
          inorder L = befFr fs ++ inorder xl ∧
          inorder R = inorder xr ++ aftFr fs := by
  intro n
  induction n with
  | zero =>
    intro fs hfs xl xr c sz lss
    have hnil : fs = [] := List.length_eq_zero.mp (Nat.le_zero.mp hfs)
    subst hnil
    exact ⟨xl, sz, lss, xr, rfl, by simp [befFr], by simp [aftFr]⟩
  | succ n ih =>
    intro fs hfs xl xr c sz lss
    match fs with
    | [] => exact ⟨xl, sz, lss, xr, rfl, by simp [befFr], by simp [aftFr]⟩
    | [.L a sib] =>
      refine ⟨xl, 1 + csize xl + csize (updNode xr a sib), csize xl,
        updNode xr a sib, by rfl, ?_, ?_⟩
      · simp [befFr]
      · simp [updNode, inorder, aftFr]
    | [.R a sib] =>
      refine ⟨updNode sib a xl, 1 + csize (updNode sib a xl) + csize xr,
        csize (updNode sib a xl), xr, by rfl, ?_, ?_⟩
      · simp [updNode, inorder, befFr]
      · simp [aftFr]
    | .L a p :: .L b g :: rest =>
      obtain ⟨L, s', l', R, heq, hL, hR⟩ :=
        ih rest (by simp only [List.length_cons] at hfs; omega)
          xl (updNode xr a (updNode p b g)) c
          (1 + csize xl + csize (updNode xr a (updNode p b g))) (csize xl)
      refine ⟨L, s', l', R, heq, ?_, ?_⟩
      · rw [hL]; simp [befFr]
      · rw [hR]; simp [updNode, inorder, aftFr]
    | .R a p :: .R b g :: rest =>
      obtain ⟨L, s', l', R, heq, hL, hR⟩ :=
        ih rest (by simp only [List.length_cons] at hfs; omega)
          (updNode (updNode g b p) a xl) xr c
          (1 + csize (updNode (updNode g b p) a xl) + csize xr)
          (csize (updNode (updNode g b p) a xl))
      refine ⟨L, s', l', R, heq, ?_, ?_⟩
      · rw [hL]; simp [updNode, inorder, befFr]
      · rw [hR]; simp [aftFr]
    | .L a p :: .R b g :: rest =>
      obtain ⟨L, s', l', R, heq, hL, hR⟩ :=
        ih rest (by simp only [List.length_cons] at hfs; omega)
          (updNode g b xl) (updNode xr a p) c
          (1 + csize (updNode g b xl) + csize (updNode xr a p))
          (csize (updNode g b xl))
      refine ⟨L, s', l', R, heq, ?_, ?_⟩
      · rw [hL]; simp [updNode, inorder, befFr]
      · rw [hR]; simp [updNode, inorder, aftFr]
    | .R a p :: .L b g :: rest =>
      obtain ⟨L, s', l', R, heq, hL, hR⟩ :=
        ih rest (by simp only [List.length_cons] at hfs; omega)
          (updNode p a xl) (updNode xr b g) c
          (1 + csize (updNode p a xl) + csize (updNode xr b g))
          (csize (updNode p a xl))
      refine ⟨L, s', l', R, heq, ?_, ?_⟩
      · rw [hL]; simp [updNode, inorder, befFr]
      · rw [hR]; simp [updNode, inorder, aftFr]

theorem splayGo_structure (fs : List Frame) (xl xr : STree) (c : Adj)
    (sz lss : Nat) :
    ∃ L sz' lss' R,
      splayGo (.node xl c sz lss xr) fs = .node L c sz' lss' R ∧
      inorder L = befFr fs ++ inorder xl ∧
      inorder R = inorder xr ++ aftFr fs :=
  splayGo_structure_aux fs.length fs (Nat.le_refl _) xl xr c sz lss

theorem bst_node_iff {l r : STree} {a : Adj} {sz lss : Nat} :
    BSTd (.node l a sz lss r) ↔
      (∀ x ∈ inorder l, adjLt x a) ∧ (∀ x ∈ inorder r, adjLt a x) ∧
        BSTd l ∧ BSTd r := by
  simp [BSTd, bstB, Bool.and_eq_true, List.all_eq_true, and_assoc]

theorem bst_inorder_pairwise : ∀ t : STree, BSTd t →
    (inorder t).Pairwise adjLt := by
  intro t
  induction t with
  | nil => intro _; exact List.Pairwise.nil
  | node l b sz lss r ihl ihr =>
    intro hb
    obtain ⟨hlb, hbr, hl, hr⟩ := bst_node_iff.mp hb
    rw [inorder, List.pairwise_append]
    refine ⟨ihl hl, ?_, ?_⟩
    · rw [List.pairwise_cons]
      exact ⟨hbr, ihr hr⟩
    · intro x hx y hy
      rcases List.mem_cons.mp hy with rfl | hy
      · exact hlb x hx
      · exact adjLt_trans (hlb x hx) (hbr y hy)

theorem befFr_append : ∀ fs gs : List Frame,
    befFr (fs ++ gs) = befFr gs ++ befFr fs := by
  intro fs
  induction fs with
  | nil => intro gs; simp [befFr]
  | cons f fs ih =>
    intro gs
    cases f with
    | L a sib => simp only [List.cons_append, befFr, List.append_eq, ih]
    | R a sib =>
      simp only [List.cons_append, befFr, List.append_eq, ih, List.append_assoc]

theorem aftFr_append : ∀ fs gs : List Frame,
    aftFr (fs ++ gs) = aftFr fs ++ aftFr gs := by
  intro fs
  induction fs with
  | nil => intro gs; simp [aftFr]
  | cons f fs ih =>
    intro gs
    cases f with
    | L a sib =>
      simp only [List.cons_append, aftFr, List.append_eq, ih, List.append_assoc]
    | R a sib => simp only [List.cons_append, aftFr, List.append_eq, ih]

theorem findPath_found :
    ∀ (t : STree) (a : Adj) (acc : List Frame), BSTd t → a ∈ inorder t →
      ∃ fs1 sl sz lss sr,
        findPath t a acc = some (fs1 ++ acc, .node sl a sz lss sr) ∧
        befFr fs1 ++ inorder sl =
          (inorder t).filter (fun x => decide (adjLt x a)) ∧
        inorder sr ++ aftFr fs1 =
          (inorder t).filter (fun x => decide (adjLt a x)) := by
  intro t
  induction t with
  | nil => intro a acc _ ha; simp [inorder] at ha
  | node l b sz lss r ihl ihr =>
    intro a acc hb ha
    obtain ⟨hlb, hbr, hl, hr⟩ := bst_node_iff.mp hb
    by_cases h1 : adjLt a b
    · have hal : a ∈ inorder l := by
        rcases List.mem_append.mp ha with h | h
        · exact h
        · rcases List.mem_cons.mp h with rfl | h
          · exact absurd h1 (adjLt_irrefl a)
          · exact absurd h1 (adjLt_asymm (hbr a h))
      obtain ⟨fs1, sl, szs, lsss, sr, heq, hbef, haft⟩ :=
        ihl a (.L b r :: acc) hl hal
      refine ⟨fs1 ++ [.L b r], sl, szs, lsss, sr, ?_, ?_, ?_⟩
      · simp only [findPath, if_pos h1]
        rw [heq, List.append_assoc]
        rfl
      · rw [befFr_append]
        have hfb : decide (adjLt b a) = false := by
          simp [adjLt_asymm h1]
        have hfr : (inorder r).filter (fun x => decide (adjLt x a)) = [] := by
          rw [List.filter_eq_nil_iff]
          intro x hx
          simp [adjLt_asymm (adjLt_trans h1 (hbr x hx))]
        simp only [inorder, List.filter_append, List.filter_cons, hfb,
          Bool.false_eq_true, if_false, hfr, List.append_nil, befFr,
          List.nil_append]
        exact hbef
      · rw [aftFr_append]
        have hfb : decide (adjLt a b) = true := by simp [h1]
        have hfr : (inorder r).filter (fun x => decide (adjLt a x)) = inorder r := by
          rw [List.filter_eq_self]
          intro x hx
          simp [adjLt_trans h1 (hbr x hx)]
        simp only [inorder, List.filter_append, List.filter_cons, hfb, if_true,
          hfr, aftFr, List.append_nil]
        rw [← haft]
        simp [List.append_assoc]
    · by_cases h2 : adjLt b a
      · have har : a ∈ inorder r := by
          rcases List.mem_append.mp ha with h | h
          · exact absurd h2 (adjLt_asymm (hlb a h))
          · rcases List.mem_cons.mp h with rfl | h
            · exact absurd h2 (adjLt_irrefl a)
            · exact h
        obtain ⟨fs1, sl, szs, lsss, sr, heq, hbef, haft⟩ :=
          ihr a (.R b l :: acc) hr har
        refine ⟨fs1 ++ [.R b l], sl, szs, lsss, sr, ?_, ?_, ?_⟩
        · simp only [findPath, if_neg h1, if_pos h2]
          rw [heq, List.append_assoc]
          rfl
        · rw [befFr_append]
          have hfb : decide (adjLt b a) = true := by simp [h2]
          have hfl : (inorder l).filter (fun x => decide (adjLt x a)) = inorder l := by
            rw [List.filter_eq_self]
            intro x hx
            simp [adjLt_trans (hlb x hx) h2]
          simp only [inorder, List.filter_append, List.filter_cons, hfb, if_true,
            hfl, befFr]
          rw [← hbef]
          simp [List.append_assoc]
        · rw [aftFr_append]
          have hfb : decide (adjLt a b) = false := by
            simp [adjLt_asymm h2]
          have hfl : (inorder l).filter (fun x => decide (adjLt a x)) = [] := by
            rw [List.filter_eq_nil_iff]
            intro x hx
            simp [adjLt_asymm (adjLt_trans (hlb x hx) h2)]
          simp only [inorder, List.filter_append, List.filter_cons, hfb,
            Bool.false_eq_true, if_false, hfl, aftFr, List.nil_append,
            List.append_nil]
          exact haft
      · have hab : a = b := by
          rcases adjLt_total a b with h | h | h
          · exact absurd h h1
          · exact h
          · exact absurd h h2
        subst hab
        refine ⟨[], l, sz, lss, r, ?_, ?_, ?_⟩
        · simp [findPath, if_neg h1, if_neg h2]
        · have hfl : (inorder l).filter (fun x => decide (adjLt x a)) = inorder l := by
            rw [List.filter_eq_self]
            intro x hx
            simp [hlb x hx]
          have hfb : decide (adjLt a a) = false := by
            simp [adjLt_irrefl a]
          have hfr : (inorder r).filter (fun x => decide (adjLt x a)) = [] := by
            rw [List.filter_eq_nil_iff]
            intro x hx
            simp [adjLt_asymm (hbr x hx)]
          simp [inorder, List.filter_append, List.filter_cons, hfl, hfb, hfr, befFr]
        · have hfl : (inorder l).filter (fun x => decide (adjLt a x)) = [] := by
            rw [List.filter_eq_nil_iff]
            intro x hx
            simp [adjLt_asymm (hlb x hx)]
          have hfb : decide (adjLt a a) = false := by
            simp [adjLt_irrefl a]
          have hfr : (inorder r).filter (fun x => decide (adjLt a x)) = inorder r := by
            rw [List.filter_eq_self]
            intro x hx
            simp [hbr x hx]
          simp [inorder, List.filter_append, List.filter_cons, hfl, hfb, hfr, aftFr]

/-- The value `_rank` returns is one plus the number of stored keys below the
vertex's key. -/
theorem rankT_val (t : STree) (a : Adj) (hv : Valid t) (hb : BSTd t)
    (ha : a ∈ inorder t) :
    (rankT t a).1 =
      1 + ((inorder t).filter (fun x => decide (adjLt x a))).length := by
  obtain ⟨fs1, sl, szs, lsss, sr, heq, hbef, -⟩ := findPath_found t a [] hb ha
  rw [List.append_nil] at heq
  obtain ⟨hfs, hsub⟩ := findPath_valid t a [] hv trivial fs1 _ heq
  obtain ⟨L, sz', lss', R, hsp, hL, -⟩ :=
    splayGo_structure fs1 sl sr a szs lsss
  have hvsp : Valid (splayGo (.node sl a szs lsss sr) fs1) :=
    valid_splayGo _ fs1 hsub hfs
  rw [hsp] at hvsp
  have hlss : lss' = realSize L := (valid_node_iff.mp hvsp).2.1
  unfold rankT
  rw [heq]
  dsimp only
  rw [hsp]
  simp only [lssOf, hlss, realSize_eq_length, hL, ← hbef]

theorem selectGo_eq :
    ∀ (t : STree) (k : Int), Valid t → 1 ≤ k → k ≤ (realSize t : Int) →
      selectGo t k = (inorder t)[(k - 1).toNat]? := by
  intro t
  induction t with
  | nil => intro k _ h1 h2; simp [realSize] at h1 h2; omega
  | node l a sz lss r ihl ihr =>
    intro k hv h1 h2
    have hlss : lss = realSize l := (valid_node_iff.mp hv).2.1
    have hlen : realSize l = (inorder l).length := realSize_eq_length l
    simp only [realSize] at h2
    by_cases hc1 : (lss : Int) ≥ k
    · rw [selectGo, if_pos hc1, inorder]
      rw [ihl k hv.left h1 (by omega)]
      rw [List.getElem?_append_left (by omega)]
    · rw [selectGo, if_neg hc1]
      by_cases hc2 : (lss : Int) < k - 1
      · rw [if_pos hc2, inorder]
        rw [ihr (k - 1 - (lss : Int)) hv.right (by omega) (by omega)]
        rw [List.getElem?_append_right (by omega)]
        have hidx : (k - 1).toNat - (inorder l).length =
            ((k - 1 - (lss : Int)) - 1).toNat + 1 := by
          omega
        rw [hidx, List.getElem?_cons_succ]
      · rw [if_neg hc2]
        have hidx : (k - 1).toNat = (inorder l).length := by omega
        rw [inorder, List.getElem?_append_right (by omega), hidx]
        simp

/-- In a strictly sorted list, the element at index `i` has exactly `i`
smaller elements. -/
theorem sorted_filter_lt_length :
    ∀ (l : List Adj), l.Pairwise adjLt → ∀ (i : Nat) (x : Adj),
      l[i]? = some x →
      (l.filter (fun y => decide (adjLt y x))).length = i := by
  intro l
  induction l with
  | nil => intro _ i x hx; simp at hx
  | cons z zs ih =>
    intro hp i x hx
    obtain ⟨hz, hzs⟩ := List.pairwise_cons.mp hp
    cases i with
    | zero =>
      simp only [List.getElem?_cons_zero, Option.some.injEq] at hx
      subst hx
      have h1 : decide (adjLt z z) = false := by simp [adjLt_irrefl z]
      have h2 : zs.filter (fun y => decide (adjLt y z)) = [] := by
        rw [List.filter_eq_nil_iff]
        intro y hy
        simp [adjLt_asymm (hz y hy)]
      simp [List.filter_cons, h1, h2]
    | succ i =>
      rw [List.getElem?_cons_succ] at hx
      have hxmem : x ∈ zs := by
        have := List.getElem?_eq_some_iff.mp hx
        obtain ⟨hlt, hget⟩ := this
        exact hget ▸ List.getElem_mem hlt
      have h1 : decide (adjLt z x) = true := by simp [hz x hxmem]
      simp [List.filter_cons, h1, ih hzs i x hx]

/-- C6: on every well-formed tree (augmentation invariant and key ordering),
rank and select are mutually inverse: `select k` succeeds for `k ∈ [1, size]`
and `rank` maps its result back to `k`; `select (rank x) = x` for every stored
adjacency `x`; and `select k` is null for every `k` outside `[1, size]`
(`size` being the root's cached `subtree_size`, as returned by `size()`). -/
theorem rank_select_inverse (t : STree) (hv : Valid t) (hb : BSTd t) :
    (∀ k : Int, 1 ≤ k → k ≤ (csize t : Int) →
      ∃ a, selectT t k = some a ∧ ((rankT t a).1 : Int) = k) ∧
    (∀ a ∈ inorder t, selectT t ((rankT t a).1 : Int) = some a) ∧
    (∀ k : Int, k < 1 ∨ (csize t : Int) < k → selectT t k = none) := by
  have hcs : csize t = realSize t := csize_eq_realSize hv
  have hlen : realSize t = (inorder t).length := realSize_eq_length t
  have hpair : (inorder t).Pairwise adjLt := bst_inorder_pairwise t hb
  refine ⟨?_, ?_, ?_⟩
  · intro k h1 h2
    have hguard : ¬ (k ≤ 0 ∨ k > (csize t : Int)) := by omega
    have hidx : (k - 1).toNat < (inorder t).length := by omega
    refine ⟨(inorder t).get ⟨(k - 1).toNat, hidx⟩, ?_, ?_⟩
    · rw [selectT, if_neg hguard,
        selectGo_eq t k hv h1 (by omega)]
      exact List.getElem?_eq_getElem hidx
    · have hmem : (inorder t)[(k - 1).toNat] ∈ inorder t :=
        List.getElem_mem hidx
      simp only [List.get_eq_getElem]
      rw [rankT_val t _ hv hb hmem,
        sorted_filter_lt_length (inorder t) hpair ((k - 1).toNat) _
          (List.getElem?_eq_getElem hidx)]
      omega
  · intro a hmem
    obtain ⟨i, hi, hget⟩ := List.mem_iff_getElem.mp hmem
    have hgetq : (inorder t)[i]? = some a :=
      List.getElem?_eq_some_iff.mpr ⟨hi, hget⟩
    have hrank : (rankT t a).1 = 1 + i := by
      rw [rankT_val t a hv hb hmem,
        sorted_filter_lt_length (inorder t) hpair i a hgetq]
    rw [hrank]
    have hguard : ¬ (((1 + i : Nat) : Int) ≤ 0 ∨
        ((1 + i : Nat) : Int) > (csize t : Int)) := by
      push_cast
      omega
    rw [selectT, if_neg hguard,
      selectGo_eq t _ hv (by push_cast; omega) (by push_cast; omega)]
    have hidx : (((1 + i : Nat) : Int) - 1).toNat = i := by omega
    rw [hidx, hgetq]
  · intro k hk
    rw [selectT, if_pos (by omega)]

/-- Witness: rank/select inversion on a concrete three-vertex tree. -/
theorem rank_select_inverse_witness :
    (∃ a, selectT tEx 2 = some a ∧ ((rankT tEx a).1 : Int) = 2) ∧
    selectT tEx (((rankT tEx (1, 0)).1 : Nat) : Int) = some (1, 0) ∧
    selectT tEx 5 = none := by
  obtain ⟨h1, h2, h3⟩ := rank_select_inverse tEx (by decide) (by decide)
  exact ⟨h1 2 (by decide) (by decide), h2 (1, 0) (by decide), h3 5 (by decide)⟩

/-! ## DisjointSet (graphgen.hpp 428–468) and `connect` (C8)

`find` uses full path compression; its recursion terminates on every state
reachable from the initial one because parent chains are acyclic. The model
makes the recursion structural on a fuel argument; fuel `N` (the number of
elements) is enough, because on acyclic states every chain reaches its root in
fewer than `N` steps (proved below). -/

/-- One parent-pointer step (`parent[a]`). -/
def pstep (p : List Nat) (a : Nat) : Nat := p.getD a a

/-- The `DisjointSet::find` with path compression (`parent[a] = find(parent[a])`),
fuel-structured. -/
def findAux : Nat → List Nat → Nat → Nat × List Nat
  | 0, p, a => (a, p)
  | fuel + 1, p, a =>
    if pstep p a = a then (a, p)
    else
      let r := findAux fuel p (pstep p a)
      (r.1, r.2.set a r.1)

/-- Root of `a`'s chain, without compression (specification device). -/
def rootAux : Nat → List Nat → Nat → Nat
  | 0, _, a => a
  | fuel + 1, p, a =>
    if pstep p a = a then a else rootAux fuel p (pstep p a)

/-- The canonical representative of `a` in parent array `p` over `n`
elements. -/
def rootD (n : Nat) (p : List Nat) (a : Nat) : Nat := rootAux n p a

/-- The `DisjointSet` state: `parent` and `rank` arrays. -/
structure DSU where
  parent : List Nat
  rnk : List Nat
deriving Repr

/-- The `DisjointSet::DisjointSet(N)`: `parent[i] = i`, ranks zero. -/
def dsuInit (n : Nat) : DSU :=
  ⟨List.range n, List.replicate n 0⟩

/-- The `DisjointSet::find` on the state. -/
def dsuFind (n : Nat) (d : DSU) (a : Nat) : Nat × DSU :=
  let r := findAux n d.parent a
  (r.1, { d with parent := r.2 })

/-- The `DisjointSet::merge` (graphgen.hpp 456–467). -/
def dsuMerge (n : Nat) (d : DSU) (a b : Nat) : Bool × DSU :=
  let fa := dsuFind n d a
  let fb := dsuFind n fa.2 b
  let va := fa.1
  let vb := fb.1
  let d2 := fb.2
  if va = vb then (false, d2)
  else if d2.rnk.getD va 0 > d2.rnk.getD vb 0 then
    (true, { d2 with parent := d2.parent.set vb va })
  else
    (true,
     { parent := d2.parent.set va vb,
       rnk := if d2.rnk.getD va 0 = d2.rnk.getD vb 0
              then d2.rnk.set vb (d2.rnk.getD vb 0 + 1) else d2.rnk })

/-- Acyclicity invariant of a parent array: right length, closed under the
parent step, and some measure strictly decreases along non-root steps. -/
def ValidP (n : Nat) (p : List Nat) : Prop :=
  p.length = n ∧ (∀ a, a < n → pstep p a < n) ∧
  ∃ h : Nat → Nat, ∀ a, a < n → pstep p a ≠ a → h (pstep p a) < h a

theorem iter_lt (n : Nat) (p : List Nat) (hcl : ∀ a, a < n → pstep p a < n)
    (a : Nat) (ha : a < n) : ∀ k, (pstep p)^[k] a < n := by
  intro k
  induction k with
  | zero => simpa using ha
  | succ k ih =>
    rw [Function.iterate_succ_apply']
    exact hcl _ ih

theorem iter_of_root (p : List Nat) (a : Nat) (hr : pstep p a = a) :
    ∀ k, (pstep p)^[k] a = a := by
  intro k
  induction k with
  | zero => rfl
  | succ k ih => rw [Function.iterate_succ_apply', ih, hr]

theorem root_exists (n : Nat) (p : List Nat) (h : ValidP n p) (a : Nat)
    (ha : a < n) : ∃ k, pstep p ((pstep p)^[k] a) = (pstep p)^[k] a := by
  obtain ⟨hlen, hcl, hm, hdec⟩ := h
  generalize hma : hm a = m
  induction m using Nat.strong_induction_on generalizing a with
  | _ m ih =>
    by_cases hr : pstep p a = a
    · exact ⟨0, by simpa using hr⟩
    · obtain ⟨k, hk⟩ := ih (hm (pstep p a)) (hma ▸ hdec a ha hr)
        (pstep p a) (hcl a ha) rfl
      exact ⟨k + 1, by
        rw [Function.iterate_succ_apply]
        exact hk⟩

/-- Every chain reaches its root in fewer than `n` steps: the measure makes
the chain injective, and it lives inside `{0, …, n-1}`. -/
theorem root_exists_lt (n : Nat) (p : List Nat) (h : ValidP n p) (a : Nat)
    (ha : a < n) :
    ∃ k, k < n ∧ pstep p ((pstep p)^[k] a) = (pstep p)^[k] a := by
  obtain ⟨hlen, hcl, hmeas⟩ := h
  have hex := root_exists n p ⟨hlen, hcl, hmeas⟩ a ha
  obtain ⟨hm, hdec⟩ := hmeas
  classical
  let m := Nat.find hex
  have hmroot : pstep p ((pstep p)^[m] a) = (pstep p)^[m] a := Nat.find_spec hex
  have hmmin : ∀ k, k < m → pstep p ((pstep p)^[k] a) ≠ (pstep p)^[k] a :=
    fun k hk => Nat.find_min hex hk
  refine ⟨m, ?_, hmroot⟩
  -- the prefix of the chain is strictly decreasing in the measure
  have hstep : ∀ k, k < m → hm ((pstep p)^[k + 1] a) < hm ((pstep p)^[k] a) := by
    intro k hk
    rw [Function.iterate_succ_apply']
    exact hdec _ (iter_lt n p hcl a ha k) (hmmin k hk)
  have hmono : ∀ i j, i < j → j ≤ m →
      hm ((pstep p)^[j] a) < hm ((pstep p)^[i] a) := by
    intro i j hij
    induction j, hij using Nat.le_induction with
    | base => intro hjm; exact hstep i (by omega)
    | succ j hij ihj =>
      intro hjm
      exact Nat.lt_trans (hstep j (by omega)) (ihj (by omega))
  -- hence the first `m+1` chain elements are pairwise distinct
  have hinj : ∀ i ∈ List.range (m + 1), ∀ j ∈ List.range (m + 1),
      (pstep p)^[i] a = (pstep p)^[j] a → i = j := by
    intro i hi j hj hij
    simp only [List.mem_range] at hi hj
    rcases Nat.lt_trichotomy i j with h' | h' | h'
    · have := hmono i j h' (by omega)
      rw [hij] at this
      omega
    · exact h'
    · have := hmono j i h' (by omega)
      rw [hij] at this
      omega
  have hnodup : ((List.range (m + 1)).map (fun k => (pstep p)^[k] a)).Nodup :=
    List.Nodup.map_on hinj (List.nodup_range (m + 1))
  have hsub : ((List.range (m + 1)).map (fun k => (pstep p)^[k] a)).toFinset ⊆
      Finset.range n := by
    intro v hv
    rw [List.mem_toFinset] at hv
    obtain ⟨k, -, rfl⟩ := List.mem_map.mp hv
    exact Finset.mem_range.mpr (iter_lt n p hcl a ha k)
  have hcard := Finset.card_le_card hsub
  rw [List.toFinset_card_of_nodup hnodup, Finset.card_range,
    List.length_map, List.length_range] at hcard
  omega

/-- The `rootAux` with enough fuel lands on the root of the chain. -/
theorem rootAux_correct :
    ∀ (k : Nat) (f : Nat) (p : List Nat) (a : Nat), k ≤ f →
      pstep p ((pstep p)^[k] a) = (pstep p)^[k] a →
      rootAux f p a = (pstep p)^[k] a := by
  intro k
  induction k with
  | zero =>
    intro f p a _ hroot
    simp only [Function.iterate_zero_apply] at hroot
    cases f with
    | zero => rfl
    | succ f =>
      simp only [rootAux]
      exact if_pos hroot
  | succ k ih =>
    intro f p a hkf hroot
    cases f with
    | zero => omega
    | succ f =>
      by_cases hr : pstep p a = a
      · rw [iter_of_root p a hr] at hroot ⊢
        simp only [rootAux]
        exact if_pos hr
      · rw [Function.iterate_succ_apply] at hroot
        have := ih f p (pstep p a) (by omega) hroot
        simp only [rootAux]
        rw [if_neg hr]
        rw [Function.iterate_succ_apply]
        exact this

theorem rootD_spec (n : Nat) (p : List Nat) (h : ValidP n p) (a : Nat)
    (ha : a < n) :
    ∃ k, k < n ∧ (pstep p)^[k] a = rootD n p a ∧
      pstep p (rootD n p a) = rootD n p a := by
  obtain ⟨k, hk, hroot⟩ := root_exists_lt n p h a ha
  have := rootAux_correct k n p a (by omega) hroot
  exact ⟨k, hk, this ▸ rfl, by rw [rootD, this]; exact hroot⟩

theorem rootD_isRoot (n : Nat) (p : List Nat) (h : ValidP n p) (a : Nat)
    (ha : a < n) : pstep p (rootD n p a) = rootD n p a :=
  (rootD_spec n p h a ha).choose_spec.2.2

theorem rootD_lt (n : Nat) (p : List Nat) (h : ValidP n p) (a : Nat)
    (ha : a < n) : rootD n p a < n := by
  obtain ⟨k, -, hiter, -⟩ := rootD_spec n p h a ha
  rw [← hiter]
  exact iter_lt n p h.2.1 a ha k

theorem rootD_of_root (n : Nat) (p : List Nat) (a : Nat)
    (hr : pstep p a = a) : rootD n p a = a := by
  rw [rootD]
  exact rootAux_correct 0 n p a (Nat.zero_le n) (by simpa using hr)

theorem rootD_eq_self_iff (n : Nat) (p : List Nat) (h : ValidP n p) (a : Nat)
    (ha : a < n) : rootD n p a = a ↔ pstep p a = a := by
  constructor
  · intro he
    have := rootD_isRoot n p h a ha
    rwa [he] at this
  · exact rootD_of_root n p a

theorem rootD_step (n : Nat) (p : List Nat) (h : ValidP n p) (a : Nat)
    (ha : a < n) : rootD n p (pstep p a) = rootD n p a := by
  by_cases hr : pstep p a = a
  · rw [hr]
  · obtain ⟨k, hk, hiter, hroot⟩ := rootD_spec n p h a ha
    cases k with
    | zero =>
      simp only [Function.iterate_zero_apply] at hiter
      rw [← hiter] at hroot
      exact absurd hroot hr
    | succ k =>
      rw [Function.iterate_succ_apply] at hiter
      have h1 := rootAux_correct k n p (pstep p a) (by omega)
        (by rw [hiter]; exact hroot)
      rw [rootD, h1, hiter]

theorem pstep_set (p : List Nat) (a r z : Nat) (ha : a < p.length) :
    pstep (p.set a r) z = if z = a then r else pstep p z := by
  by_cases hz : z = a
  · subst hz
    simp [pstep, List.getD, List.getElem?_set_self ha]
  · simp [pstep, List.getD, List.getElem?_set_ne (fun h => hz h.symm), hz]

/-- Along any chain, the measure of the root is at most the measure of the
start, strictly smaller off the root. -/
theorem measure_rootD_le (n : Nat) (p : List Nat) (h : ValidP n p)
    (hm : Nat → Nat)
    (hdec : ∀ a, a < n → pstep p a ≠ a → hm (pstep p a) < hm a) :
    ∀ a, a < n → hm (rootD n p a) ≤ hm a := by
  intro a ha
  generalize hma : hm a = m
  induction m using Nat.strong_induction_on generalizing a with
  | _ m ih =>
    by_cases hr : pstep p a = a
    · rw [rootD_of_root n p a hr, hma]
    · have h1 := hdec a ha hr
      have h2 := ih (hm (pstep p a)) (hma ▸ h1) (pstep p a) (h.2.1 a ha) rfl
      rw [← rootD_step n p h a ha]
      omega

/-- Pointing a vertex directly at its root preserves validity and the
partition (this is exactly what one path-compression write does). -/
theorem setroot_spec (n : Nat) (p : List Nat) (h : ValidP n p) (a : Nat)
    (ha : a < n) :
    ValidP n (p.set a (rootD n p a)) ∧
    ∀ z, z < n → rootD n (p.set a (rootD n p a)) z = rootD n p z := by
  obtain ⟨hlen, hcl, hm, hdec⟩ := h
  have hv : ValidP n p := ⟨hlen, hcl, hm, hdec⟩
  have halen : a < p.length := by omega
  have hstep' : ∀ z, pstep (p.set a (rootD n p a)) z =
      if z = a then rootD n p a else pstep p z :=
    fun z => pstep_set p a (rootD n p a) z halen
  have hvalid : ValidP n (p.set a (rootD n p a)) := by
    refine ⟨by simpa using hlen, ?_, ?_⟩
    · intro z hz
      rw [hstep']
      by_cases hza : z = a
      · rw [if_pos hza]
        exact rootD_lt n p hv a ha
      · rw [if_neg hza]
        exact hcl z hz
    · refine ⟨hm, ?_⟩
      intro z hz hne
      rw [hstep'] at hne ⊢
      by_cases hza : z = a
      · subst hza
        rw [if_pos rfl] at hne ⊢
        have hznr : pstep p z ≠ z := by
          intro hroot
          exact hne (rootD_of_root n p z hroot)
        have h1 := measure_rootD_le n p hv hm hdec (pstep p z) (hcl z hz)
        have h2 := hdec z hz hznr
        rw [rootD_step n p hv z hz] at h1
        omega
      · rw [if_neg hza] at hne ⊢
        exact hdec z hz hne
  have hRroot : ∀ w, w < n → pstep p w ≠ w →
      rootD n (p.set a (rootD n p a)) (rootD n p w) = rootD n p w := by
    intro w hw _
    by_cases hra : rootD n p w = a
    · -- then a is its own root, contradicting usage only when needed; handle directly
      have hroot := rootD_isRoot n p hv w hw
      rw [hra] at hroot
      have : rootD n p a = a := rootD_of_root n p a hroot
      rw [hra, this]
      have hstepz : pstep (p.set a a) a = a := by
        rw [pstep_set p a a a halen, if_pos rfl]
      exact rootD_of_root n (p.set a a) a hstepz
    · have hroot := rootD_isRoot n p hv w hw
      have hstepz : pstep (p.set a (rootD n p a)) (rootD n p w) = rootD n p w := by
        rw [hstep', if_neg hra]
        exact hroot
      exact rootD_of_root n _ _ hstepz
  refine ⟨hvalid, ?_⟩
  intro z hz
  generalize hmz : hm z = m
  induction m using Nat.strong_induction_on generalizing z with
  | _ m ih =>
    by_cases hza : z = a
    · subst hza
      by_cases hr : pstep p z = z
      · have hra : rootD n p z = z := rootD_of_root n p z hr
        have hstepz : pstep (p.set z (rootD n p z)) z = z := by
          rw [hra, pstep_set p z z z halen, if_pos rfl]
        rw [rootD_of_root n _ _ hstepz, hra]
      · have h1 : pstep (p.set z (rootD n p z)) z = rootD n p z := by
          rw [hstep', if_pos rfl]
        have h2 := hRroot z hz hr
        calc rootD n (p.set z (rootD n p z)) z
            = rootD n (p.set z (rootD n p z))
                (pstep (p.set z (rootD n p z)) z) :=
              (rootD_step n _ hvalid z hz).symm
          _ = rootD n (p.set z (rootD n p z)) (rootD n p z) := by rw [h1]
          _ = rootD n p z := h2
    · by_cases hr : pstep p z = z
      · have hstepz : pstep (p.set a (rootD n p a)) z = z := by
          rw [hstep', if_neg hza]
          exact hr
        rw [rootD_of_root n _ _ hstepz, rootD_of_root n p z hr]
      · have h1 : pstep (p.set a (rootD n p a)) z = pstep p z := by
          rw [hstep', if_neg hza]
        have hmlt := hdec z hz hr
        have h2 := ih (hm (pstep p z)) (hmz ▸ hmlt) (pstep p z)
          (hcl z hz) rfl
        calc rootD n (p.set a (rootD n p a)) z
            = rootD n (p.set a (rootD n p a))
                (pstep (p.set a (rootD n p a)) z) :=
              (rootD_step n _ hvalid z hz).symm
          _ = rootD n (p.set a (rootD n p a)) (pstep p z) := by rw [h1]
          _ = rootD n p (pstep p z) := h2
          _ = rootD n p z := rootD_step n p hv z hz

/-- Auxiliary form of the path-compression lemma for `find`: if the root of
the chain starting at `a` is reached within `fuel` steps, then `findAux`
returns that root, and the compressed parent array is again valid and
induces the same partition. -/
theorem findAux_go (n : Nat) (p : List Nat) (h : ValidP n p) :
    ∀ (fuel a : Nat), a < n →
      (∃ k, k ≤ fuel ∧ pstep p ((pstep p)^[k] a) = (pstep p)^[k] a) →
      (findAux fuel p a).1 = rootD n p a ∧
      ValidP n (findAux fuel p a).2 ∧
      ∀ z, z < n → rootD n (findAux fuel p a).2 z = rootD n p z := by
  intro fuel
  induction fuel with
  | zero =>
    intro a ha hex
    obtain ⟨k, hk, hroot⟩ := hex
    have hk0 : k = 0 := Nat.le_zero.mp hk
    subst hk0
    simp only [Function.iterate_zero_apply] at hroot
    exact ⟨(rootD_of_root n p a hroot).symm, h, fun z _ => rfl⟩
  | succ fuel ih =>
    intro a ha hex
    by_cases hr : pstep p a = a
    · have e : findAux (fuel + 1) p a = (a, p) := by
        simp only [findAux]
        rw [if_pos hr]
      rw [e]
      exact ⟨(rootD_of_root n p a hr).symm, h, fun z _ => rfl⟩
    · obtain ⟨k, hk, hroot⟩ := hex
      cases k with
      | zero =>
        simp only [Function.iterate_zero_apply] at hroot
        exact absurd hroot hr
      | succ k =>
        rw [Function.iterate_succ_apply] at hroot
        obtain ⟨h1, h2, h3⟩ := ih (pstep p a) (h.2.1 a ha) ⟨k, by omega, hroot⟩
        have hr1 : (findAux fuel p (pstep p a)).1 = rootD n p a := by
          rw [h1]
          exact rootD_step n p h a ha
        have e : findAux (fuel + 1) p a =
            ((findAux fuel p (pstep p a)).1,
             (findAux fuel p (pstep p a)).2.set a (findAux fuel p (pstep p a)).1) := by
          simp only [findAux]
          rw [if_neg hr]
        rw [e]
        have hra2 : rootD n (findAux fuel p (pstep p a)).2 a = rootD n p a :=
          h3 a ha
        have hset : (findAux fuel p (pstep p a)).2.set a (findAux fuel p (pstep p a)).1 =
            (findAux fuel p (pstep p a)).2.set a
              (rootD n (findAux fuel p (pstep p a)).2 a) := by
          rw [hra2, hr1]
        obtain ⟨hv2, hp2⟩ := setroot_spec n (findAux fuel p (pstep p a)).2 h2 a ha
        refine ⟨hr1, ?_, ?_⟩
        · rw [hset]
          exact hv2
        · intro z hz
          rw [hset, hp2 z hz, h3 z hz]

/-- The `DisjointSet::find` (graphgen.hpp): with fuel `n` the recursion
terminates, returns the root of `a`, and the path-compressed parent array is
valid and induces the same partition of the vertices. -/
theorem findAux_spec (n : Nat) (p : List Nat) (h : ValidP n p) (a : Nat)
    (ha : a < n) :
    (findAux n p a).1 = rootD n p a ∧
    ValidP n (findAux n p a).2 ∧
    ∀ z, z < n → rootD n (findAux n p a).2 z = rootD n p z := by
  obtain ⟨k, hk, hroot⟩ := root_exists_lt n p h a ha
  exact findAux_go n p h n a ha ⟨k, by omega, hroot⟩

/-- Linking a root `x` under a different root `y` keeps the parent array
valid and merges exactly the class of `x` into the class of `y`. -/
theorem union_spec (n : Nat) (p : List Nat) (h : ValidP n p) (x y : Nat)
    (hx : x < n) (hy : y < n) (hrx : pstep p x = x) (hry : pstep p y = y)
    (hxy : x ≠ y) :
    ValidP n (p.set x y) ∧
    ∀ z, z < n →
      rootD n (p.set x y) z = if rootD n p z = x then y else rootD n p z := by
  obtain ⟨hlen, hcl, hm, hdec⟩ := h
  have hv : ValidP n p := ⟨hlen, hcl, hm, hdec⟩
  have hxlen : x < p.length := by omega
  have hstep' : ∀ z, pstep (p.set x y) z = if z = x then y else pstep p z :=
    fun z => pstep_set p x y z hxlen
  have hvalid : ValidP n (p.set x y) := by
    refine ⟨by simpa using hlen, ?_, ?_⟩
    · intro z hz
      rw [hstep']
      by_cases hzx : z = x
      · rw [if_pos hzx]
        exact hy
      · rw [if_neg hzx]
        exact hcl z hz
    · refine ⟨fun z => hm z + (if rootD n p z = x then hm y + 1 else 0), ?_⟩
      intro z hz hne
      rw [hstep'] at hne ⊢
      by_cases hzx : z = x
      · subst hzx
        rw [if_pos rfl]
        have hrz : rootD n p z = z := rootD_of_root n p z hrx
        have hry' : rootD n p y = y := rootD_of_root n p y hry
        dsimp only
        rw [hrz, hry', if_pos rfl, if_neg (fun hh => hxy hh.symm)]
        omega
      · rw [if_neg hzx] at hne ⊢
        have hlt := hdec z hz hne
        have heq : rootD n p (pstep p z) = rootD n p z := rootD_step n p hv z hz
        dsimp only
        rw [heq]
        omega
  refine ⟨hvalid, ?_⟩
  intro z hz
  generalize hmz : hm z = m
  induction m using Nat.strong_induction_on generalizing z with
  | _ m ih =>
    by_cases hr : pstep p z = z
    · have hrz : rootD n p z = z := rootD_of_root n p z hr
      by_cases hzx : z = x
      · subst hzx
        rw [hrz, if_pos rfl]
        have h1 : pstep (p.set z y) z = y := by
          rw [hstep', if_pos rfl]
        have h2 : pstep (p.set z y) y = y := by
          rw [hstep', if_neg (fun hh => hxy hh.symm)]
          exact hry
        calc rootD n (p.set z y) z
            = rootD n (p.set z y) (pstep (p.set z y) z) :=
              (rootD_step n _ hvalid z hz).symm
          _ = rootD n (p.set z y) y := by rw [h1]
          _ = y := rootD_of_root n _ y h2
      · have h1 : pstep (p.set x y) z = z := by
          rw [hstep', if_neg hzx]
          exact hr
        rw [rootD_of_root n _ z h1, hrz, if_neg ?_]
        exact hzx
    · have hzx : z ≠ x := by
        intro hh
        subst hh
        exact hr hrx
      have h1 : pstep (p.set x y) z = pstep p z := by
        rw [hstep', if_neg hzx]
      have hlt := hdec z hz hr
      have h2 := ih (hm (pstep p z)) (hmz ▸ hlt) (pstep p z) (hcl z hz) rfl
      have h3 : rootD n p (pstep p z) = rootD n p z := rootD_step n p hv z hz
      calc rootD n (p.set x y) z
          = rootD n (p.set x y) (pstep (p.set x y) z) :=
            (rootD_step n _ hvalid z hz).symm
        _ = rootD n (p.set x y) (pstep p z) := by rw [h1]
        _ = if rootD n p (pstep p z) = x then y else rootD n p (pstep p z) := h2
        _ = if rootD n p z = x then y else rootD n p z := by rw [h3]

theorem linkRoot_iff (ra rb rx ry r1 r2 : Nat)
    (hperm : (r1 = ra ∧ r2 = rb) ∨ (r1 = rb ∧ r2 = ra)) (h12 : r1 ≠ r2) :
    ((if rx = r1 then r2 else rx) = (if ry = r1 then r2 else ry)) ↔
    (rx = ry ∨ (rx = ra ∧ rb = ry) ∨ (rx = rb ∧ ra = ry)) := by
  rcases hperm with ⟨e1, e2⟩ | ⟨e1, e2⟩ <;> subst e1 <;> subst e2 <;>
    split_ifs <;> omega

/-- The `DisjointSet::merge` (graphgen.hpp): the parent array stays valid, the
returned flag is `true` exactly when the two arguments were in different
classes, and the partition after the call merges exactly the classes of the
two arguments (regardless of which rank branch is taken). -/
theorem dsuMerge_spec (n : Nat) (d : DSU) (h : ValidP n d.parent) (a b : Nat)
    (ha : a < n) (hb : b < n) :
    ValidP n (dsuMerge n d a b).2.parent ∧
    ((dsuMerge n d a b).1 = true ↔ rootD n d.parent a ≠ rootD n d.parent b) ∧
    ∀ x y, x < n → y < n →
      (rootD n (dsuMerge n d a b).2.parent x =
         rootD n (dsuMerge n d a b).2.parent y ↔
       (rootD n d.parent x = rootD n d.parent y ∨
        (rootD n d.parent x = rootD n d.parent a ∧
         rootD n d.parent b = rootD n d.parent y) ∨
        (rootD n d.parent x = rootD n d.parent b ∧
         rootD n d.parent a = rootD n d.parent y))) := by
  obtain ⟨hf1, hv1, hp1⟩ := findAux_spec n d.parent h a ha
  have hv1' : ValidP n (dsuFind n d a).2.parent := hv1
  obtain ⟨hf2, hv2, hp2⟩ := findAux_spec n (dsuFind n d a).2.parent hv1' b hb
  have hp12 : ∀ z, z < n →
      rootD n (dsuFind n (dsuFind n d a).2 b).2.parent z =
        rootD n d.parent z := by
    intro z hz
    have h1 : rootD n (dsuFind n (dsuFind n d a).2 b).2.parent z =
        rootD n (dsuFind n d a).2.parent z := hp2 z hz
    rw [h1]
    exact hp1 z hz
  have hva : (dsuFind n d a).1 = rootD n d.parent a := hf1
  have hvb : (dsuFind n (dsuFind n d a).2 b).1 = rootD n d.parent b := by
    have h1 : (dsuFind n (dsuFind n d a).2 b).1 =
        rootD n (dsuFind n d a).2.parent b := hf2
    rw [h1]
    exact hp1 b hb
  have hv2' : ValidP n (dsuFind n (dsuFind n d a).2 b).2.parent := hv2
  have hralt : rootD n d.parent a < n := rootD_lt n d.parent h a ha
  have hrblt : rootD n d.parent b < n := rootD_lt n d.parent h b hb
  have hroota : pstep (dsuFind n (dsuFind n d a).2 b).2.parent
      (rootD n d.parent a) = rootD n d.parent a := by
    have h1 : rootD n (dsuFind n (dsuFind n d a).2 b).2.parent a =
        rootD n d.parent a := hp12 a ha
    have h2 := rootD_isRoot n (dsuFind n (dsuFind n d a).2 b).2.parent hv2' a ha
    rw [h1] at h2
    exact h2
  have hrootb : pstep (dsuFind n (dsuFind n d a).2 b).2.parent
      (rootD n d.parent b) = rootD n d.parent b := by
    have h1 : rootD n (dsuFind n (dsuFind n d a).2 b).2.parent b =
        rootD n d.parent b := hp12 b hb
    have h2 := rootD_isRoot n (dsuFind n (dsuFind n d a).2 b).2.parent hv2' b hb
    rw [h1] at h2
    exact h2
  by_cases hab : rootD n d.parent a = rootD n d.parent b
  · have hcond : (dsuFind n d a).1 = (dsuFind n (dsuFind n d a).2 b).1 := by
      rw [hva, hvb]
      exact hab
    have he : dsuMerge n d a b = (false, (dsuFind n (dsuFind n d a).2 b).2) := by
      unfold dsuMerge
      rw [if_pos hcond]
    rw [he]
    refine ⟨hv2', ?_, ?_⟩
    · simp [hab]
    · intro x y hx hy
      rw [hp12 x hx, hp12 y hy]
      constructor
      · exact Or.inl
      · rintro (hxy | ⟨h1, h2⟩ | ⟨h1, h2⟩)
        · exact hxy
        · rw [h1, hab, h2]
        · rw [h1, ← hab, h2]
  · have hcond : ¬ (dsuFind n d a).1 = (dsuFind n (dsuFind n d a).2 b).1 := by
      rw [hva, hvb]
      exact hab
    have hrane : rootD n d.parent a ≠ rootD n d.parent b := hab
    by_cases hrk : (dsuFind n (dsuFind n d a).2 b).2.rnk.getD
        (dsuFind n d a).1 0 >
        (dsuFind n (dsuFind n d a).2 b).2.rnk.getD
        ((dsuFind n (dsuFind n d a).2 b).1) 0
    · have he : dsuMerge n d a b =
          (true, { (dsuFind n (dsuFind n d a).2 b).2 with
                   parent := (dsuFind n (dsuFind n d a).2 b).2.parent.set
                     ((dsuFind n (dsuFind n d a).2 b).1) ((dsuFind n d a).1) }) := by
        unfold dsuMerge
        rw [if_neg hcond, if_pos hrk]
      rw [he]
      obtain ⟨hvu, hpu⟩ := union_spec n
        (dsuFind n (dsuFind n d a).2 b).2.parent hv2'
        (rootD n d.parent b) (rootD n d.parent a) hrblt hralt hrootb hroota
        (fun hh => hrane hh.symm)
      rw [hva, hvb]
      refine ⟨hvu, by simp [hrane], ?_⟩
      intro x y hx hy
      rw [hpu x hx, hpu y hy, hp12 x hx, hp12 y hy]
      exact linkRoot_iff (rootD n d.parent a) (rootD n d.parent b)
        (rootD n d.parent x) (rootD n d.parent y)
        (rootD n d.parent b) (rootD n d.parent a)
        (Or.inr ⟨rfl, rfl⟩) (fun hh => hrane hh.symm)
    · have he : dsuMerge n d a b =
          (true, { parent := (dsuFind n (dsuFind n d a).2 b).2.parent.set
                     ((dsuFind n d a).1) ((dsuFind n (dsuFind n d a).2 b).1),
                   rnk := if (dsuFind n (dsuFind n d a).2 b).2.rnk.getD
                       ((dsuFind n d a).1) 0 =
                       (dsuFind n (dsuFind n d a).2 b).2.rnk.getD
                       ((dsuFind n (dsuFind n d a).2 b).1) 0
                     then (dsuFind n (dsuFind n d a).2 b).2.rnk.set
                       ((dsuFind n (dsuFind n d a).2 b).1)
                       ((dsuFind n (dsuFind n d a).2 b).2.rnk.getD
                         ((dsuFind n (dsuFind n d a).2 b).1) 0 + 1)
                     else (dsuFind n (dsuFind n d a).2 b).2.rnk }) := by
        unfold dsuMerge
        rw [if_neg hcond, if_neg hrk]
      rw [he]
      obtain ⟨hvu, hpu⟩ := union_spec n
        (dsuFind n (dsuFind n d a).2 b).2.parent hv2'
        (rootD n d.parent a) (rootD n d.parent b) hralt hrblt hroota hrootb
        hrane
      rw [hva, hvb]
      refine ⟨hvu, by simp [hrane], ?_⟩
      intro x y hx hy
      rw [hpu x hx, hpu y hy, hp12 x hx, hp12 y hy]
      exact linkRoot_iff (rootD n d.parent a) (rootD n d.parent b)
        (rootD n d.parent x) (rootD n d.parent y)
        (rootD n d.parent a) (rootD n d.parent b)
        (Or.inl ⟨rfl, rfl⟩) hrane

/-- One-step adjacency of a list of vertex pairs, in either orientation.
This is the edge relation that `connect()`'s initial loop feeds to the
disjoint-set structure (one `merge(e.tail, e.head)` per stored pair). -/
def EL (L : List (Nat × Nat)) (x y : Nat) : Prop :=
  (x, y) ∈ L ∨ (y, x) ∈ L

instance (L : List (Nat × Nat)) (x y : Nat) : Decidable (EL L x y) := by
  unfold EL; infer_instance

/-- Connectivity generated by a list of vertex pairs: the reflexive
transitive closure of the symmetrized one-step adjacency. -/
def ConnL (L : List (Nat × Nat)) : Nat → Nat → Prop :=
  Relation.ReflTransGen (EL L)

/-- One-step adjacency in a graph state: some orientation of the pair is
stored in `adj_list`. -/
def ConnE (g : UGraph) (x y : Nat) : Prop :=
  (x, y) ∈ g.adj ∨ (y, x) ∈ g.adj

/-- Connectivity in a graph state: two vertices are in the same connected
component iff a chain of stored adjacencies links them. -/
def Conn (g : UGraph) : Nat → Nat → Prop :=
  Relation.ReflTransGen (ConnE g)

theorem conn_eq_connL (g : UGraph) : Conn g = ConnL g.adj := rfl

theorem connL_refl (L : List (Nat × Nat)) (x : Nat) : ConnL L x x :=
  Relation.ReflTransGen.refl

theorem connL_trans {L : List (Nat × Nat)} {x y z : Nat}
    (h1 : ConnL L x y) (h2 : ConnL L y z) : ConnL L x z :=
  Relation.ReflTransGen.trans h1 h2

theorem connL_symm {L : List (Nat × Nat)} {x y : Nat}
    (h : ConnL L x y) : ConnL L y x := by
  have hs : Symmetric (EL L) := by
    intro u v huv
    rcases huv with h1 | h1
    · exact Or.inr h1
    · exact Or.inl h1
  exact (Relation.ReflTransGen.symmetric hs) h

theorem connL_single {L : List (Nat × Nat)} {x y : Nat}
    (h : EL L x y) : ConnL L x y :=
  Relation.ReflTransGen.single h

theorem connL_mono {L L' : List (Nat × Nat)} (hsub : ∀ e ∈ L, e ∈ L')
    {x y : Nat} (h : ConnL L x y) : ConnL L' x y := by
  refine Relation.ReflTransGen.mono ?_ h
  intro u v huv
  rcases huv with h1 | h1
  · exact Or.inl (hsub _ h1)
  · exact Or.inr (hsub _ h1)

theorem connL_nil {x y : Nat} (h : ConnL [] x y) : x = y := by
  induction h with
  | refl => rfl
  | tail _ hstep _ =>
    rcases hstep with h1 | h1 <;> exact absurd h1 (List.not_mem_nil _)

/-- Appending one pair `(a, b)` to the edge list merges exactly the
components of `a` and of `b`. -/
theorem connL_snoc (L : List (Nat × Nat)) (a b x y : Nat) :
    ConnL (L ++ [(a, b)]) x y ↔
      ConnL L x y ∨ (ConnL L x a ∧ ConnL L b y) ∨
        (ConnL L x b ∧ ConnL L a y) := by
  constructor
  · intro h
    induction h using Relation.ReflTransGen.head_induction_on with
    | refl => exact Or.inl (connL_refl L y)
    | head hstep _ ih =>
      rename_i u v _
      have hcase : EL L u v ∨ (u = a ∧ v = b) ∨ (u = b ∧ v = a) := by
        rcases hstep with h1 | h1
        · rcases List.mem_append.mp h1 with h2 | h2
          · exact Or.inl (Or.inl h2)
          · have h3 : (u, v) = (a, b) := List.mem_singleton.mp h2
            exact Or.inr (Or.inl ⟨congrArg Prod.fst h3, congrArg Prod.snd h3⟩)
        · rcases List.mem_append.mp h1 with h2 | h2
          · exact Or.inl (Or.inr h2)
          · have h3 : (v, u) = (a, b) := List.mem_singleton.mp h2
            exact Or.inr (Or.inr ⟨congrArg Prod.snd h3, congrArg Prod.fst h3⟩)
      rcases hcase with he | ⟨rfl, rfl⟩ | ⟨rfl, rfl⟩
      · rcases ih with h1 | ⟨h1, h2⟩ | ⟨h1, h2⟩
        · exact Or.inl (connL_trans (connL_single he) h1)
        · exact Or.inr (Or.inl ⟨connL_trans (connL_single he) h1, h2⟩)
        · exact Or.inr (Or.inr ⟨connL_trans (connL_single he) h1, h2⟩)
      · rcases ih with h1 | ⟨h1, h2⟩ | ⟨h1, h2⟩
        · exact Or.inr (Or.inl ⟨connL_refl _ _, h1⟩)
        · exact Or.inl (connL_trans (connL_symm h1) h2)
        · exact Or.inl h2
      · rcases ih with h1 | ⟨h1, h2⟩ | ⟨h1, h2⟩
        · exact Or.inr (Or.inr ⟨connL_refl _ _, h1⟩)
        · exact Or.inl h2
        · exact Or.inl (connL_trans (connL_symm h1) h2)
  · have hsub : ∀ e ∈ L, e ∈ L ++ [(a, b)] :=
      fun e he => List.mem_append.mpr (Or.inl he)
    have hab : ConnL (L ++ [(a, b)]) a b :=
      connL_single (Or.inl (List.mem_append.mpr (Or.inr (List.mem_singleton.mpr rfl))))
    rintro (h1 | ⟨h1, h2⟩ | ⟨h1, h2⟩)
    · exact connL_mono hsub h1
    · exact connL_trans (connL_mono hsub h1)
        (connL_trans hab (connL_mono hsub h2))
    · exact connL_trans (connL_mono hsub h1)
        (connL_trans (connL_symm hab) (connL_mono hsub h2))

/-- The first loop of `connect()`: fold `DisjointSet::merge` over a list of
vertex pairs. -/
def mergeList (n : Nat) (L : List (Nat × Nat)) (d : DSU) : DSU :=
  L.foldl (fun d e => (dsuMerge n d e.1 e.2).2) d

theorem dsuInit_valid (n : Nat) : ValidP n (dsuInit n).parent := by
  refine ⟨by simp [dsuInit], ?_, id, ?_⟩
  · intro a ha
    have h1 : pstep (dsuInit n).parent a = a := by
      simp [dsuInit, pstep, List.getD, List.getElem?_range ha]
    omega
  · intro a ha hne
    exfalso
    apply hne
    simp [dsuInit, pstep, List.getD, List.getElem?_range ha]

theorem rootD_init (n a : Nat) (ha : a < n) :
    rootD n (dsuInit n).parent a = a := by
  apply rootD_of_root
  simp [dsuInit, pstep, List.getD, List.getElem?_range ha]

/-- The initial `merge` loop of `connect()`: starting from the fresh
disjoint-set structure, folding all stored pairs yields a valid structure
whose classes are exactly the connected components generated by the pairs. -/
theorem mergeList_spec (n : Nat) :
    ∀ (L : List (Nat × Nat)), (∀ e ∈ L, e.1 < n ∧ e.2 < n) →
      ValidP n (mergeList n L (dsuInit n)).parent ∧
      ∀ x y, x < n → y < n →
        (rootD n (mergeList n L (dsuInit n)).parent x =
           rootD n (mergeList n L (dsuInit n)).parent y ↔ ConnL L x y) := by
  intro L
  induction L using List.reverseRecOn with
  | nil =>
    intro _
    refine ⟨dsuInit_valid n, ?_⟩
    intro x y hx hy
    rw [show mergeList n [] (dsuInit n) = dsuInit n from rfl,
      rootD_init n x hx, rootD_init n y hy]
    constructor
    · intro hxy
      exact hxy ▸ connL_refl [] y
    · exact connL_nil
  | append_singleton L e ih =>
    intro hbound
    have hL : ∀ e' ∈ L, e'.1 < n ∧ e'.2 < n :=
      fun e' he' => hbound e' (List.mem_append.mpr (Or.inl he'))
    have heb : e.1 < n ∧ e.2 < n :=
      hbound e (List.mem_append.mpr (Or.inr (List.mem_singleton.mpr rfl)))
    obtain ⟨hv, hiff⟩ := ih hL
    have hfold : mergeList n (L ++ [e]) (dsuInit n) =
        (dsuMerge n (mergeList n L (dsuInit n)) e.1 e.2).2 := by
      simp [mergeList, List.foldl_append]
    obtain ⟨hv', hflag, hpart⟩ :=
      dsuMerge_spec n (mergeList n L (dsuInit n)) hv e.1 e.2 heb.1 heb.2
    rw [hfold]
    refine ⟨hv', ?_⟩
    intro x y hx hy
    rw [hpart x y hx hy, hiff x y hx hy, hiff x e.1 hx heb.1,
      hiff e.2 y heb.2 hy, hiff x e.2 hx heb.2, hiff e.1 y heb.1 hy]
    exact (connL_snoc L e.1 e.2 x y).symm

/-- The representative-collecting loop of `connect()`: scan the shuffled
vertices, merge each with the first vertex, and record those whose merge
reports a previously separate class. -/
def reprGo (n v0 : Nat) : List Nat → DSU → DSU × List Nat
  | [], d => (d, [])
  | v :: rest, d =>
    let m := dsuMerge n d v0 v
    let r := reprGo n v0 rest m.2
    (r.1, if m.1 then v :: r.2 else r.2)

theorem blob_extend_iff (C : Nat → Nat → Prop)
    (hrefl : ∀ x, C x x) (hsymm : ∀ {x y : Nat}, C x y → C y x)
    (htrans : ∀ {x y z : Nat}, C x y → C y z → C x z)
    (v0 v x y : Nat) (pre : List Nat) :
    ((C x y ∨ ((∃ p ∈ v0 :: pre, C p x) ∧ (∃ p ∈ v0 :: pre, C p y))) ∨
     ((C x v0 ∨ ((∃ p ∈ v0 :: pre, C p x) ∧ (∃ p ∈ v0 :: pre, C p v0))) ∧
      (C v y ∨ ((∃ p ∈ v0 :: pre, C p v) ∧ (∃ p ∈ v0 :: pre, C p y)))) ∨
     ((C x v ∨ ((∃ p ∈ v0 :: pre, C p x) ∧ (∃ p ∈ v0 :: pre, C p v))) ∧
      (C v0 y ∨ ((∃ p ∈ v0 :: pre, C p v0) ∧ (∃ p ∈ v0 :: pre, C p y)))))
    ↔ (C x y ∨
        ((∃ p ∈ v0 :: pre ++ [v], C p x) ∧ (∃ p ∈ v0 :: pre ++ [v], C p y))) := by
  have hv0mem : v0 ∈ v0 :: pre := List.mem_cons_self v0 pre
  have hv0mem' : v0 ∈ v0 :: pre ++ [v] := List.mem_cons_self v0 (pre ++ [v])
  have hvmem' : v ∈ v0 :: pre ++ [v] := by
    simp
  have hmono : ∀ z, (∃ p ∈ v0 :: pre, C p z) → ∃ p ∈ v0 :: pre ++ [v], C p z := by
    rintro z ⟨p, hp, hcp⟩
    refine ⟨p, ?_, hcp⟩
    rcases List.mem_cons.mp hp with rfl | hp
    · exact hv0mem'
    · exact List.mem_cons.mpr (Or.inr (List.mem_append.mpr (Or.inl hp)))
  have hsplit : ∀ z, (∃ p ∈ v0 :: pre ++ [v], C p z) →
      (∃ p ∈ v0 :: pre, C p z) ∨ C v z := by
    rintro z ⟨p, hp, hcp⟩
    rcases List.mem_cons.mp hp with rfl | hp
    · exact Or.inl ⟨p, hv0mem, hcp⟩
    · rcases List.mem_append.mp hp with hp | hp
      · exact Or.inl ⟨p, List.mem_cons.mpr (Or.inr hp), hcp⟩
      · rw [List.mem_singleton.mp hp] at hcp
        exact Or.inr hcp
  constructor
  · rintro ((h1 | ⟨hx, hy⟩) |
      ⟨hx2 | ⟨hx2, -⟩, hy2 | ⟨hv2, hy2⟩⟩ |
      ⟨hx3 | ⟨hx3, -⟩, hy3 | ⟨-, hy3⟩⟩)
    · exact Or.inl h1
    · exact Or.inr ⟨hmono x hx, hmono y hy⟩
    · exact Or.inr ⟨hmono x ⟨v0, hv0mem, hsymm hx2⟩, ⟨v, hvmem', hy2⟩⟩
    · exact Or.inr ⟨hmono x ⟨v0, hv0mem, hsymm hx2⟩, hmono y hy2⟩
    · exact Or.inr ⟨hmono x hx2, ⟨v, hvmem', hy2⟩⟩
    · exact Or.inr ⟨hmono x hx2, hmono y hy2⟩
    · exact Or.inr ⟨⟨v, hvmem', hsymm hx3⟩, hmono y ⟨v0, hv0mem, hy3⟩⟩
    · exact Or.inr ⟨⟨v, hvmem', hsymm hx3⟩, hmono y hy3⟩
    · exact Or.inr ⟨hmono x hx3, hmono y ⟨v0, hv0mem, hy3⟩⟩
    · exact Or.inr ⟨hmono x hx3, hmono y hy3⟩
  · rintro (h1 | ⟨hx, hy⟩)
    · exact Or.inl (Or.inl h1)
    · rcases hsplit x hx with hx' | hx' <;> rcases hsplit y hy with hy' | hy'
      · exact Or.inl (Or.inr ⟨hx', hy'⟩)
      · exact Or.inr (Or.inl ⟨Or.inr ⟨hx', ⟨v0, hv0mem, hrefl v0⟩⟩, Or.inl hy'⟩)
      · exact Or.inr (Or.inr ⟨Or.inl (hsymm hx'), Or.inr ⟨⟨v0, hv0mem, hrefl v0⟩, hy'⟩⟩)
      · exact Or.inl (Or.inl (htrans (hsymm hx') hy'))

/-- Correctness of the representative loop: starting from a disjoint-set
state whose classes are "same component, or both already absorbed into the
blob of processed vertices", the loop returns the sublist of scanned
vertices that open a new component.  The collected vertices are pairwise in
different components, none is in a component already seen, and every scanned
vertex is in the component of a seen or collected vertex. -/
theorem reprGo_spec (n v0 : Nat) (C : Nat → Nat → Prop)
    (hrefl : ∀ x, C x x) (hsymm : ∀ {x y : Nat}, C x y → C y x)
    (htrans : ∀ {x y z : Nat}, C x y → C y z → C x z)
    (hv0 : v0 < n) :
    ∀ (rest : List Nat) (d : DSU) (pre : List Nat),
      ValidP n d.parent →
      (∀ x y, x < n → y < n →
        (rootD n d.parent x = rootD n d.parent y ↔
          (C x y ∨ ((∃ p ∈ v0 :: pre, C p x) ∧ (∃ p ∈ v0 :: pre, C p y))))) →
      (∀ v ∈ rest, v < n) →
      (∀ r ∈ (reprGo n v0 rest d).2, r ∈ rest) ∧
      (∀ r ∈ (reprGo n v0 rest d).2, ¬ ∃ p ∈ v0 :: pre, C p r) ∧
      (reprGo n v0 rest d).2.Pairwise (fun a b => ¬ C a b) ∧
      (∀ v ∈ rest, (∃ p ∈ v0 :: pre, C p v) ∨
        ∃ r ∈ (reprGo n v0 rest d).2, C r v) := by
  intro rest
  induction rest with
  | nil =>
    intro d pre _ _ _
    refine ⟨?_, ?_, ?_, ?_⟩
    · intro r hr
      exact absurd hr (List.not_mem_nil r)
    · intro r hr
      exact absurd hr (List.not_mem_nil r)
    · exact List.Pairwise.nil
    · intro v hv
      exact absurd hv (List.not_mem_nil v)
  | cons v rest ih =>
    intro d pre hvd hiff hbound
    have hvn : v < n := hbound v (List.mem_cons_self v rest)
    have hbound' : ∀ w ∈ rest, w < n :=
      fun w hw => hbound w (List.mem_cons.mpr (Or.inr hw))
    obtain ⟨hvm, hflag, hpart⟩ := dsuMerge_spec n d hvd v0 v hv0 hvn
    have hiff' : ∀ x y, x < n → y < n →
        (rootD n (dsuMerge n d v0 v).2.parent x =
           rootD n (dsuMerge n d v0 v).2.parent y ↔
          (C x y ∨ ((∃ p ∈ v0 :: pre ++ [v], C p x) ∧
            (∃ p ∈ v0 :: pre ++ [v], C p y)))) := by
      intro x y hx hy
      rw [hpart x y hx hy, hiff x y hx hy, hiff x v0 hx hv0, hiff v y hvn hy,
        hiff x v hx hvn, hiff v0 y hv0 hy]
      exact blob_extend_iff C hrefl (fun h => hsymm h) (fun h1 h2 => htrans h1 h2)
        v0 v x y pre
    obtain ⟨hA, hB, hC, hD⟩ :=
      ih (dsuMerge n d v0 v).2 (pre ++ [v]) hvm hiff' hbound'
    have hgo : reprGo n v0 (v :: rest) d =
        ((reprGo n v0 rest (dsuMerge n d v0 v).2).1,
          if (dsuMerge n d v0 v).1 then
            v :: (reprGo n v0 rest (dsuMerge n d v0 v).2).2
          else (reprGo n v0 rest (dsuMerge n d v0 v).2).2) := rfl
    have hBpre : ∀ r ∈ (reprGo n v0 rest (dsuMerge n d v0 v).2).2,
        ¬ ∃ p ∈ v0 :: pre, C p r := by
      intro r hr hex
      apply hB r hr
      obtain ⟨p, hp, hcp⟩ := hex
      refine ⟨p, ?_, hcp⟩
      rcases List.mem_cons.mp hp with rfl | hp
      · exact List.mem_cons_self p (pre ++ [v])
      · exact List.mem_cons.mpr (Or.inr (List.mem_append.mpr (Or.inl hp)))
    by_cases hfl : (dsuMerge n d v0 v).1 = true
    · have hnb : ¬ ∃ p ∈ v0 :: pre, C p v := by
        intro hex
        have := (hflag.mp hfl)
        apply this
        rw [hiff v0 v hv0 hvn]
        exact Or.inr ⟨⟨v0, List.mem_cons_self v0 pre, hrefl v0⟩, hex⟩
      rw [hgo, hfl, if_pos rfl]
      refine ⟨?_, ?_, ?_, ?_⟩
      · intro r hr
        rcases List.mem_cons.mp hr with rfl | hr
        · exact List.mem_cons_self r rest
        · exact List.mem_cons.mpr (Or.inr (hA r hr))
      · intro r hr
        rcases List.mem_cons.mp hr with rfl | hr
        · exact hnb
        · exact hBpre r hr
      · refine List.pairwise_cons.mpr ⟨?_, hC⟩
        intro r hr hcvr
        apply hB r hr
        exact ⟨v, by simp, hcvr⟩
      · intro w hw
        rcases List.mem_cons.mp hw with rfl | hw
        · exact Or.inr ⟨w, List.mem_cons_self w _, hrefl w⟩
        · rcases hD w hw with ⟨p, hp, hcp⟩ | ⟨r, hr, hcr⟩
          · rcases List.mem_cons.mp hp with rfl | hp
            · exact Or.inl ⟨p, List.mem_cons_self p pre, hcp⟩
            · rcases List.mem_append.mp hp with hp | hp
              · exact Or.inl ⟨p, List.mem_cons.mpr (Or.inr hp), hcp⟩
              · rw [List.mem_singleton.mp hp] at hcp
                exact Or.inr ⟨v, List.mem_cons_self v _, hcp⟩
          · exact Or.inr ⟨r, List.mem_cons.mpr (Or.inr hr), hcr⟩
    · have hbv : ∃ p ∈ v0 :: pre, C p v := by
        have hroots : rootD n d.parent v0 = rootD n d.parent v := by
          by_contra hne
          exact hfl (hflag.mpr hne)
        rcases (hiff v0 v hv0 hvn).mp hroots with h1 | ⟨-, h2⟩
        · exact ⟨v0, List.mem_cons_self v0 pre, h1⟩
        · exact h2
      rw [hgo, if_neg (by simpa using hfl)]
      refine ⟨?_, ?_, hC, ?_⟩
      · intro r hr
        exact List.mem_cons.mpr (Or.inr (hA r hr))
      · exact hBpre
      · intro w hw
        rcases List.mem_cons.mp hw with rfl | hw
        · exact Or.inl hbv
        · rcases hD w hw with ⟨p, hp, hcp⟩ | ⟨r, hr, hcr⟩
          · rcases List.mem_cons.mp hp with rfl | hp
            · exact Or.inl ⟨p, List.mem_cons_self p pre, hcp⟩
            · rcases List.mem_append.mp hp with hp | hp
              · exact Or.inl ⟨p, List.mem_cons.mpr (Or.inr hp), hcp⟩
              · rw [List.mem_singleton.mp hp] at hcp
                obtain ⟨q, hq, hcq⟩ := hbv
                exact Or.inl ⟨q, hq, htrans hcq hcp⟩
          · exact Or.inr ⟨r, hr, hcr⟩

theorem insertEdge_perm (e : Adj) :
    ∀ l : List Adj, e ∉ l → (insertEdge e l).Perm (e :: l) := by
  intro l
  induction l with
  | nil => intro _; simp [insertEdge]
  | cons x xs ih =>
    intro hne
    have hex : e ≠ x := fun h => hne (h ▸ List.mem_cons_self e xs)
    have hexs : e ∉ xs := fun h => hne (List.mem_cons.mpr (Or.inr h))
    by_cases h1 : adjLt e x
    · simp [insertEdge, if_pos h1]
    · simp only [insertEdge, if_neg h1, if_neg hex]
      exact (List.Perm.cons x (ih hexs)).trans (List.Perm.swap e x xs)

theorem mem_addEdge (g : UGraph) (a b : Nat) (u v : Nat) :
    (u, v) ∈ (addEdge g a b).adj ↔
      (u, v) = (b, a) ∨ (u, v) = (a, b) ∨ (u, v) ∈ g.adj := by
  simp only [addEdge, mem_insertEdge]

theorem addEdge_N (g : UGraph) (a b : Nat) : (addEdge g a b).N = g.N := rfl

theorem addEdge_mono (g : UGraph) (a b : Nat) :
    ∀ e ∈ g.adj, e ∈ (addEdge g a b).adj := by
  intro e he
  rcases e with ⟨u, v⟩
  exact (mem_addEdge g a b u v).mpr (Or.inr (Or.inr he))

theorem conn_mono {g g' : UGraph} (hsub : ∀ e ∈ g.adj, e ∈ g'.adj)
    {x y : Nat} (h : Conn g x y) : Conn g' x y := by
  rw [conn_eq_connL] at h ⊢
  exact connL_mono hsub h

theorem conn_refl (g : UGraph) (x : Nat) : Conn g x x :=
  Relation.ReflTransGen.refl

theorem conn_symm {g : UGraph} {x y : Nat} (h : Conn g x y) : Conn g y x :=
  connL_symm h

theorem conn_trans {g : UGraph} {x y z : Nat} (h1 : Conn g x y)
    (h2 : Conn g y z) : Conn g x z :=
  connL_trans h1 h2

theorem conn_addEdge (g : UGraph) (a b : Nat) : Conn (addEdge g a b) a b :=
  connL_single (Or.inl ((mem_addEdge g a b a b).mpr (Or.inr (Or.inl rfl))))

/-- Adding a fresh undirected edge between two distinct vertices increases
the canonical edge count by exactly one (one of the two stored orientations
passes the `tail > head` filter). -/
theorem canonCount_addEdge (g : UGraph) (a b : Nat) (hab : a ≠ b)
    (h1 : (a, b) ∉ g.adj) (h2 : (b, a) ∉ g.adj) :
    canonCount (addEdge g a b) = canonCount g + 1 := by
  have hne : (b, a) ∉ insertEdge (a, b) g.adj := by
    rw [mem_insertEdge]
    rintro (h | h)
    · exact hab (congrArg Prod.snd h)
    · exact h2 h
  have hperm : (addEdge g a b).adj.Perm ((b, a) :: (a, b) :: g.adj) := by
    have p1 : (insertEdge (a, b) g.adj).Perm ((a, b) :: g.adj) :=
      insertEdge_perm (a, b) g.adj h1
    exact (insertEdge_perm (b, a) _ hne).trans (List.Perm.cons (b, a) p1)
  have hfp : (canonEdges (addEdge g a b)).Perm
      (((b, a) :: (a, b) :: g.adj).filter (fun e => decide (e.2 < e.1))) :=
    hperm.filter _
  rw [canonCount, hfp.length_eq]
  rcases Nat.lt_or_ge a b with hlt | hge
  · have hba : (decide ((b, a).2 < (b, a).1)) = true := by
      simp [hlt]
    have hnab : (decide ((a, b).2 < (a, b).1)) = false := by
      simp
      omega
    simp only [List.filter_cons, hba, hnab]
    simp [canonCount, canonEdges]
  · have hgt : b < a := by omega
    have hnba : (decide ((b, a).2 < (b, a).1)) = false := by
      simp
      omega
    have hab' : (decide ((a, b).2 < (a, b).1)) = true := by
      simp [hgt]
    simp only [List.filter_cons, hnba, hab']
    simp [canonCount, canonEdges]

/-- The spanning loop of `connect()`: for each later representative, add an
edge to a uniformly chosen earlier representative. -/
def addTree (g : UGraph) (rl : List Nat) (rand : Nat → Nat) : UGraph :=
  (List.range' 1 (rl.length - 1)).foldl
    (fun h i => addEdge h (rl.getD (rand i) 0) (rl.getD i 0)) g

/-- Invariant of the spanning loop: after the first `j` iterations the
vertex count is unchanged, the old adjacencies are still present, exactly
`j` canonical edges have been added, the first `j + 1` representatives are
connected to the first one, and every stored adjacency is either an old one
or one of the added tree edges. -/
theorem addTree_go (g0 : UGraph) (rl : List Nat) (rand : Nat → Nat)
    (hrand : ∀ i, 1 ≤ i → rand i < i)
    (hnadj : ∀ i j, i < rl.length → j < rl.length → i ≠ j →
      (rl.getD i 0, rl.getD j 0) ∉ g0.adj)
    (hnodup : rl.Nodup) :
    ∀ j, j ≤ rl.length - 1 →
      ((List.range' 1 j).foldl
          (fun h i => addEdge h (rl.getD (rand i) 0) (rl.getD i 0)) g0).N =
        g0.N ∧
      (∀ e ∈ g0.adj, e ∈ ((List.range' 1 j).foldl
          (fun h i => addEdge h (rl.getD (rand i) 0) (rl.getD i 0)) g0).adj) ∧
      canonCount ((List.range' 1 j).foldl
          (fun h i => addEdge h (rl.getD (rand i) 0) (rl.getD i 0)) g0) =
        canonCount g0 + j ∧
      (∀ i, i ≤ j → i < rl.length →
        Conn ((List.range' 1 j).foldl
          (fun h i => addEdge h (rl.getD (rand i) 0) (rl.getD i 0)) g0)
          (rl.getD 0 0) (rl.getD i 0)) ∧
      (∀ u v, (u, v) ∈ ((List.range' 1 j).foldl
          (fun h i => addEdge h (rl.getD (rand i) 0) (rl.getD i 0)) g0).adj →
        (u, v) ∈ g0.adj ∨
          ∃ m, 1 ≤ m ∧ m ≤ j ∧
            ((u = rl.getD (rand m) 0 ∧ v = rl.getD m 0) ∨
             (u = rl.getD m 0 ∧ v = rl.getD (rand m) 0))) := by
  intro j
  induction j with
  | zero =>
    intro _
    refine ⟨rfl, fun e he => he, by simp, ?_, fun u v h => Or.inl h⟩
    intro i hi _
    have : i = 0 := Nat.le_zero.mp hi
    subst this
    exact conn_refl _ _
  | succ j ih =>
    intro hj1
    have hj : j ≤ rl.length - 1 := by omega
    obtain ⟨hN, hmono, hcount, hconn, hmem⟩ := ih hj
    have hcat : List.range' 1 (j + 1) = List.range' 1 j ++ [1 + j] := by
      rw [List.range'_concat]
      simp
    have hfold : (List.range' 1 (j + 1)).foldl
        (fun h i => addEdge h (rl.getD (rand i) 0) (rl.getD i 0)) g0 =
        addEdge ((List.range' 1 j).foldl
          (fun h i => addEdge h (rl.getD (rand i) 0) (rl.getD i 0)) g0)
          (rl.getD (rand (1 + j)) 0) (rl.getD (1 + j) 0) := by
      rw [hcat, List.foldl_append]
      rfl
    have hjlt : 1 + j < rl.length := by omega
    have hrlt : rand (1 + j) < 1 + j := hrand (1 + j) (by omega)
    have hrlt' : rand (1 + j) < rl.length := by omega
    have hidx : rand (1 + j) ≠ 1 + j := by omega
    have hgetne : ∀ i i', i < rl.length → i' < rl.length → i ≠ i' →
        rl.getD i 0 ≠ rl.getD i' 0 := by
      intro i i' hi hi' hii heq
      rw [List.getD_eq_getElem rl 0 hi, List.getD_eq_getElem rl 0 hi'] at heq
      have h5 : (⟨i, hi⟩ : Fin rl.length) = ⟨i', hi'⟩ :=
        List.nodup_iff_injective_get.mp hnodup (by simpa using heq)
      exact hii (Fin.mk.injEq .. ▸ h5)
    have hvalne : rl.getD (rand (1 + j)) 0 ≠ rl.getD (1 + j) 0 :=
      hgetne _ _ hrlt' hjlt hidx
    have hnotin1 : (rl.getD (rand (1 + j)) 0, rl.getD (1 + j) 0) ∉
        ((List.range' 1 j).foldl
          (fun h i => addEdge h (rl.getD (rand i) 0) (rl.getD i 0)) g0).adj := by
      intro hin
      rcases hmem _ _ hin with h0 | ⟨m, hm1, hmj, hcase⟩
      · exact hnadj _ _ hrlt' hjlt hidx h0
      · have hrm := hrand m hm1
        rcases hcase with ⟨-, h2⟩ | ⟨-, h2⟩
        · exact hgetne (1 + j) m hjlt (by omega) (by omega) h2
        · exact hgetne (1 + j) (rand m) hjlt (by omega) (by omega) h2
    have hnotin2 : (rl.getD (1 + j) 0, rl.getD (rand (1 + j)) 0) ∉
        ((List.range' 1 j).foldl
          (fun h i => addEdge h (rl.getD (rand i) 0) (rl.getD i 0)) g0).adj := by
      intro hin
      rcases hmem _ _ hin with h0 | ⟨m, hm1, hmj, hcase⟩
      · exact hnadj _ _ hjlt hrlt' (by omega) h0
      · have hrm := hrand m hm1
        rcases hcase with ⟨h2, -⟩ | ⟨h2, -⟩
        · exact hgetne (1 + j) (rand m) hjlt (by omega) (by omega) h2
        · exact hgetne (1 + j) m hjlt (by omega) (by omega) h2
    rw [hfold]
    refine ⟨hN, ?_, ?_, ?_, ?_⟩
    · intro e he
      exact addEdge_mono _ _ _ e (hmono e he)
    · rw [canonCount_addEdge _ _ _ hvalne hnotin1 hnotin2, hcount]
      omega
    · intro i hi hilen
      rcases Nat.lt_or_ge i (j + 1) with hle | hge
      · exact conn_mono (addEdge_mono _ _ _) (hconn i (by omega) hilen)
      · have : i = 1 + j := by omega
        subst this
        have h1 : Conn ((List.range' 1 j).foldl
            (fun h i => addEdge h (rl.getD (rand i) 0) (rl.getD i 0)) g0)
            (rl.getD 0 0) (rl.getD (rand (1 + j)) 0) :=
          hconn (rand (1 + j)) (by omega) hrlt'
        exact conn_trans (conn_mono (addEdge_mono _ _ _) h1) (conn_addEdge _ _ _)
    · intro u v hin
      rcases (mem_addEdge _ _ _ u v).mp hin with h0 | h0 | h0
      · refine Or.inr ⟨1 + j, by omega, by omega, Or.inr ?_⟩
        exact ⟨congrArg Prod.fst h0, congrArg Prod.snd h0⟩
      · refine Or.inr ⟨1 + j, by omega, by omega, Or.inl ?_⟩
        exact ⟨congrArg Prod.fst h0, congrArg Prod.snd h0⟩
      · rcases hmem u v h0 with h1 | ⟨m, hm1, hmj, hcase⟩
        · exact Or.inl h1
        · exact Or.inr ⟨m, hm1, by omega, hcase⟩

/-- The `UndirectedGraph::connect` (graphgen.hpp): seed a disjoint-set structure
with all stored adjacencies, scan the shuffled vertices collecting one
representative per connected component, and add one edge from each later
representative to a randomly chosen earlier one.  `perm` stands for the
shuffled vertex vector, `rand i` for the value of `randrange(0, i)`.
Returns the final graph together with the representative list. -/
def connectU (g : UGraph) (perm : List Nat) (rand : Nat → Nat) :
    UGraph × List Nat :=
  let d1 := mergeList g.N g.adj (dsuInit g.N)
  let v0 := perm.headD 0
  let r := reprGo g.N v0 perm.tail d1
  let reprL := v0 :: r.2
  ((List.range' 1 (reprL.length - 1)).foldl
      (fun h i => addEdge h (reprL.getD (rand i) 0) (reprL.getD i 0)) g,
   reprL)

/-- A system of representatives of the connected components of `g`: one
vertex per component, jointly covering all vertices below `N`.  The number
of connected components of `g` is the common length of all such systems. -/
def IsRepSys (g : UGraph) (S : List Nat) : Prop :=
  (∀ r ∈ S, r < g.N) ∧ S.Nodup ∧
  S.Pairwise (fun a b => ¬ Conn g a b) ∧
  ∀ v, v < g.N → ∃ r ∈ S, Conn g r v

theorem repSys_le (g : UGraph) (S T : List Nat) (hS : IsRepSys g S)
    (hT : IsRepSys g T) : S.length ≤ T.length := by
  obtain ⟨hSb, hSnd, hSpw, hScov⟩ := hS
  obtain ⟨hTb, hTnd, hTpw, hTcov⟩ := hT
  classical
  have hf : ∀ r ∈ S, ∃ t ∈ T, Conn g t r := fun r hr => hTcov r (hSb r hr)
  have h1 : S.toFinset.card = S.length := List.toFinset_card_of_nodup hSnd
  have h2 : T.toFinset.card = T.length := List.toFinset_card_of_nodup hTnd
  rw [← h1, ← h2]
  have hsymm : Symmetric (fun a b => ¬ Conn g a b) := by
    intro a b hab hc
    exact hab (conn_symm hc)
  apply Finset.card_le_card_of_injOn
    (fun r => if h : ∃ t ∈ T, Conn g t r then h.choose else 0)
  · intro r hr
    rw [List.mem_toFinset] at hr ⊢
    have hex := hf r hr
    rw [dif_pos hex]
    exact hex.choose_spec.1
  · intro r1 hr1 r2 hr2 heq
    rw [Finset.mem_coe, List.mem_toFinset] at hr1 hr2
    have hex1 := hf r1 hr1
    have hex2 := hf r2 hr2
    simp only at heq
    rw [dif_pos hex1, dif_pos hex2] at heq
    have hc1 : Conn g hex1.choose r1 := hex1.choose_spec.2
    have hc2 : Conn g hex2.choose r2 := hex2.choose_spec.2
    rw [heq] at hc1
    have hc12 : Conn g r1 r2 := conn_trans (conn_symm hc1) hc2
    by_contra hne
    exact (hSpw.forall hsymm) hr1 hr2 hne hc12

theorem repSys_card (g : UGraph) (S T : List Nat) (hS : IsRepSys g S)
    (hT : IsRepSys g T) : S.length = T.length :=
  Nat.le_antisymm (repSys_le g S T hS hT) (repSys_le g T S hT hS)

theorem getD_ne_of_nodup (rl : List Nat) (hnd : rl.Nodup) (i j : Nat)
    (hi : i < rl.length) (hj : j < rl.length) (hij : i ≠ j) :
    rl.getD i 0 ≠ rl.getD j 0 := by
  intro heq
  rw [List.getD_eq_getElem rl 0 hi, List.getD_eq_getElem rl 0 hj] at heq
  have h5 : (⟨i, hi⟩ : Fin rl.length) = ⟨j, hj⟩ :=
    List.nodup_iff_injective_get.mp hnd (by simpa using heq)
  exact hij (Fin.mk.injEq .. ▸ h5)

/-- C8.  `UndirectedGraph::connect` on a graph with `N ≥ 1` vertices (all
stored endpoints in range, `perm` the shuffled vertex order, `rand i` the
outcome of `randrange(0, i)`): the vertex count is unchanged; the collected
representative list is a system of representatives of the connected
components; exactly `c - 1` canonical edges are added, where `c` is the
length of any system of representatives, i.e. the number of connected
components; afterwards all vertices below `N` are in one connected
component; and on an already connected graph the call returns the graph
unchanged. -/
theorem connect_spec (g : UGraph) (perm : List Nat) (rand : Nat → Nat)
    (hN : 1 ≤ g.N)
    (hadj : ∀ e ∈ g.adj, e.1 < g.N ∧ e.2 < g.N)
    (hperm : perm.Perm (List.range g.N))
    (hrand : ∀ i, 1 ≤ i → rand i < i) :
    (connectU g perm rand).1.N = g.N ∧
    IsRepSys g (connectU g perm rand).2 ∧
    (∀ S, IsRepSys g S →
      canonCount (connectU g perm rand).1 = canonCount g + (S.length - 1)) ∧
    (∀ x y, x < g.N → y < g.N → Conn (connectU g perm rand).1 x y) ∧
    ((∀ x y, x < g.N → y < g.N → Conn g x y) →
      (connectU g perm rand).1 = g) := by
  have hplen : perm.length = g.N := by
    rw [hperm.length_eq, List.length_range]
  cases perm with
  | nil =>
    exfalso
    simp at hplen
    omega
  | cons v0 tl =>
  have hv0N : v0 < g.N := by
    have h1 : v0 ∈ List.range g.N :=
      (hperm.mem_iff).mp (List.mem_cons_self v0 tl)
    exact List.mem_range.mp h1
  have htl : ∀ w ∈ tl, w < g.N := by
    intro w hw
    have h1 : w ∈ List.range g.N :=
      (hperm.mem_iff).mp (List.mem_cons.mpr (Or.inr hw))
    exact List.mem_range.mp h1
  obtain ⟨hvd1, hiff1⟩ := mergeList_spec g.N g.adj hadj
  have hiff0 : ∀ x y, x < g.N → y < g.N →
      (rootD g.N (mergeList g.N g.adj (dsuInit g.N)).parent x =
         rootD g.N (mergeList g.N g.adj (dsuInit g.N)).parent y ↔
        (Conn g x y ∨ ((∃ p ∈ v0 :: ([] : List Nat), Conn g p x) ∧
          (∃ p ∈ v0 :: ([] : List Nat), Conn g p y)))) := by
    intro x y hx hy
    rw [hiff1 x y hx hy]
    constructor
    · intro h
      exact Or.inl h
    · rintro (h | ⟨⟨p, hp, hpx⟩, ⟨q, hq, hqy⟩⟩)
      · exact h
      · rw [List.mem_singleton.mp hp] at hpx
        rw [List.mem_singleton.mp hq] at hqy
        exact conn_trans (conn_symm hpx) hqy
  obtain ⟨hA, hB, hC, hD⟩ := reprGo_spec g.N v0 (Conn g)
    (fun x => conn_refl g x) (fun h => conn_symm h)
    (fun h1 h2 => conn_trans h1 h2) hv0N tl
    (mergeList g.N g.adj (dsuInit g.N)) [] hvd1 hiff0 htl
  have hrl : (connectU g (v0 :: tl) rand).2 =
      v0 :: (reprGo g.N v0 tl (mergeList g.N g.adj (dsuInit g.N))).2 := rfl
  have hrlb : ∀ r ∈ (connectU g (v0 :: tl) rand).2, r < g.N := by
    rw [hrl]
    intro r hr
    rcases List.mem_cons.mp hr with rfl | hr
    · exact hv0N
    · exact htl r (hA r hr)
  have hrlpw : (connectU g (v0 :: tl) rand).2.Pairwise
      (fun a b => ¬ Conn g a b) := by
    rw [hrl]
    refine List.pairwise_cons.mpr ⟨?_, hC⟩
    intro r hr hc
    exact hB r hr ⟨v0, List.mem_cons_self v0 [], hc⟩
  have hrlnd : (connectU g (v0 :: tl) rand).2.Nodup := by
    refine hrlpw.imp ?_
    intro a b hab
    intro heq
    exact hab (heq ▸ conn_refl g a)
  have hrlcov : ∀ v, v < g.N → ∃ r ∈ (connectU g (v0 :: tl) rand).2, Conn g r v := by
    intro v hv
    have h1 : v ∈ v0 :: tl := (hperm.mem_iff).mpr (List.mem_range.mpr hv)
    rw [hrl]
    rcases List.mem_cons.mp h1 with rfl | h1
    · exact ⟨v, List.mem_cons_self v _, conn_refl g v⟩
    · rcases hD v h1 with ⟨p, hp, hcp⟩ | ⟨r, hr, hcr⟩
      · rw [List.mem_singleton.mp hp] at hcp
        exact ⟨v0, List.mem_cons_self v0 _, hcp⟩
      · exact ⟨r, List.mem_cons.mpr (Or.inr hr), hcr⟩
  have hreps : IsRepSys g (connectU g (v0 :: tl) rand).2 :=
    ⟨hrlb, hrlnd, hrlpw, hrlcov⟩
  have hsymmc : Symmetric (fun a b => ¬ Conn g a b) := by
    intro a b hab hc
    exact hab (conn_symm hc)
  have hnadj : ∀ i j, i < (connectU g (v0 :: tl) rand).2.length →
      j < (connectU g (v0 :: tl) rand).2.length → i ≠ j →
      ((connectU g (v0 :: tl) rand).2.getD i 0,
        (connectU g (v0 :: tl) rand).2.getD j 0) ∉ g.adj := by
    intro i j hi hj hij hin
    have hne := getD_ne_of_nodup _ hrlnd i j hi hj hij
    have hmi : (connectU g (v0 :: tl) rand).2.getD i 0 ∈
        (connectU g (v0 :: tl) rand).2 := by
      rw [List.getD_eq_getElem _ 0 hi]
      exact List.getElem_mem hi
    have hmj : (connectU g (v0 :: tl) rand).2.getD j 0 ∈
        (connectU g (v0 :: tl) rand).2 := by
      rw [List.getD_eq_getElem _ 0 hj]
      exact List.getElem_mem hj
    have hnc := (hrlpw.forall hsymmc) hmi hmj hne
    exact hnc (connL_single (Or.inl hin))
  obtain ⟨hN', hmono', hcount', hconn', hmem'⟩ :=
    addTree_go g (connectU g (v0 :: tl) rand).2 rand hrand hnadj hrlnd
      ((connectU g (v0 :: tl) rand).2.length - 1) (Nat.le_refl _)
  have hg'eq : (connectU g (v0 :: tl) rand).1 =
      (List.range' 1 ((connectU g (v0 :: tl) rand).2.length - 1)).foldl
        (fun h i => addEdge h ((connectU g (v0 :: tl) rand).2.getD (rand i) 0)
          ((connectU g (v0 :: tl) rand).2.getD i 0)) g := rfl
  have hNfin : (connectU g (v0 :: tl) rand).1.N = g.N := by
    rw [hg'eq]
    exact hN'
  have hcountfin : canonCount (connectU g (v0 :: tl) rand).1 =
      canonCount g + ((connectU g (v0 :: tl) rand).2.length - 1) := by
    rw [hg'eq]
    exact hcount'
  refine ⟨hNfin, hreps, ?_, ?_, ?_⟩
  · intro S hs
    rw [hcountfin, repSys_card g (connectU g (v0 :: tl) rand).2 S hreps hs]
  · intro x y hx hy
    have hv0get : (connectU g (v0 :: tl) rand).2.getD 0 0 = v0 := by
      rw [hrl]
      rfl
    have hlink : ∀ z, z < g.N → Conn (connectU g (v0 :: tl) rand).1 v0 z := by
      intro z hz
      obtain ⟨r, hr, hcr⟩ := hrlcov z hz
      obtain ⟨i, hilt, hieq⟩ := List.mem_iff_getElem.mp hr
      have h1 : Conn (connectU g (v0 :: tl) rand).1 v0
          ((connectU g (v0 :: tl) rand).2.getD i 0) := by
        rw [hg'eq]
        have := hconn' i (by omega) hilt
        rw [hv0get] at this
        exact this
      have h2 : (connectU g (v0 :: tl) rand).2.getD i 0 = r := by
        rw [List.getD_eq_getElem _ 0 hilt, hieq]
      rw [h2] at h1
      have h3 : Conn (connectU g (v0 :: tl) rand).1 r z := by
        rw [hg'eq]
        exact conn_mono hmono' hcr
      exact conn_trans h1 h3
    exact conn_trans (conn_symm (hlink x hx)) (hlink y hy)
  · intro hallc
    have hcoll : (reprGo g.N v0 tl (mergeList g.N g.adj (dsuInit g.N))).2 = [] := by
      rw [List.eq_nil_iff_forall_not_mem]
      intro r hr
      have hrN : r < g.N := htl r (hA r hr)
      exact hB r hr ⟨v0, List.mem_cons_self v0 [], hallc v0 r hv0N hrN⟩
    have hlen : (connectU g (v0 :: tl) rand).2.length - 1 = 0 := by
      rw [hrl, hcoll]
      rfl
    rw [hg'eq, hlen]
    rfl

theorem connect_spec_witness :
    IsRepSys ⟨2, []⟩ (connectU ⟨2, []⟩ [0, 1] (fun _ => 0)).2 ∧
    (connectU ⟨2, []⟩ [0, 1] (fun _ => 0)).1.N = 2 :=
  have h := connect_spec ⟨2, []⟩ [0, 1] (fun _ => 0) (by decide)
    (by intro e he; exact absurd he (List.not_mem_nil e))
    (by decide) (fun _ hi => hi)
  ⟨h.2.1, h.1⟩
